import Mathlib

/-!
Verification of the HEB-graph core (hierarchical explanation of behavior as
graphs): node model, behavior-graph evaluation with its call/trace graph,
unrolling, requirement-graph building and complexity metrics.

The definitions below are a shallow embedding of the Python sources
(`hebg/node.py`, `hebg/behavior.py`, `hebg/call_graph.py`, `hebg/unrolling.py`,
`hebg/requirements_graph.py`, `hebg/metrics/complexity/complexities.py`).
Node identity in the source is the node's name (`Node.__eq__` compares names,
`Node.__hash__` hashes the name), so graphs and registries are modelled as
name-keyed structures.  Numeric complexities/costs are embedded as integers
(every value appearing in the sources and fixtures is integral).
-/

namespace HebG

/-- Closed set of node kinds of an HEB graph (`Node.type` strings
"action", "feature_condition", "behavior", "empty"). -/
inductive NodeKind
  | action
  | featureCondition
  | behavior
  | empty
deriving DecidableEq, Repr

/-- A graph node: name (the identity), kind tag, complexity used to order the
evaluation frontier, and for actions the opaque value returned when called
(`Action.action`), embedded as a string. -/
structure HNode where
  name : String
  kind : NodeKind
  complexity : Int
  value : String := ""
deriving DecidableEq, Repr

/-- A directed indexed edge of an HEB graph (`HEBGraph.add_edge(u, v, index)`).
Endpoints are node names since node identity is the name. -/
structure GEdge where
  src : String
  dst : String
  index : Nat
deriving DecidableEq, Repr

/-- An HEB graph: the owning behavior node (`HEBGraph.behavior`), its nodes in
insertion order and its indexed edges in insertion order.  networkx `DiGraph`
stores nodes and adjacency in insertion order and forbids parallel edges. -/
structure HGraph where
  behavior : HNode
  nodes : List HNode
  edges : List GEdge
deriving DecidableEq, Repr

/-- Node lookup by name (name-keyed identity). -/
def nodeNamed (g : HGraph) (name : String) : Option HNode :=
  g.nodes.find? (fun n => n.name = name)

/-- Successors of a node in edge-insertion order (`graph.successors(node)`). -/
def successorsOf (g : HGraph) (node : HNode) : List HNode :=
  (g.edges.filter (fun e => e.src = node.name)).filterMap (fun e => nodeNamed g e.dst)

/-- Modelled from the spec: `hebg.graph.get_successors_with_index` is absent
from the sources (only its callers are).  Per the spec, a FeatureCondition's
outgoing edges carrying the returned branch index form the next candidate set;
an index with no matching outgoing edge is a fatal error, which the caller
detects via an empty result.  The identical inline logic appears in
`HEBGraph._get_action`. -/
def getSuccessorsWithIndex (g : HGraph) (node : HNode) (idx : Nat) : List HNode :=
  (g.edges.filter (fun e => e.src = node.name ∧ e.index = idx)).filterMap
    (fun e => nodeNamed g e.dst)

/-- Roots of a graph: nodes without predecessors, in node-insertion order
(`get_roots`). -/
def rootsOf (g : HGraph) : List HNode :=
  g.nodes.filter (fun n => ¬ g.edges.any (fun e => e.dst = n.name))

/-- Evaluation environment: the behavior registry (`all_behaviors`, name-keyed
as in the source fixtures where one registry is shared by every graph) giving
the replacement node for a behavior name, the graph a behavior name resolves
to (its own lazily built graph or the registry entry's; `none` models
`NotImplementedError` from `build_graph`), and the feature-condition semantics.
`fcEval name k` is the branch index returned by the `k`-th application
(counting from 0) of the condition named `name` to the observation of this
evaluation call; the dependence on `k` models stateful or nondeterministic
condition functions. -/
structure EvalEnv where
  registryNode : String → Option HNode
  registryGraph : String → Option HGraph
  fcEval : String → Nat → Nat

/-- Key of a trace node in the call graph: a `(branch, rank)` pair
(`CallNode` named tuple). -/
structure CallKey where
  branch : Nat
  rank : Nat
deriving DecidableEq, Repr

/-- Status carried by a call-graph edge (`CallEdgeStatus`). -/
inductive CallStatus
  | unexplored
  | called
  | failure
deriving DecidableEq, Repr

/-- A node of the call graph: its `(branch, rank)` key and its payload, the
originating HEB-graph node (`heb_node`, after registry replacement) and the
HEB graph it was found in (`heb_graph`). -/
structure TraceNode where
  key : CallKey
  hebNode : HNode
  graph : HGraph
deriving DecidableEq, Repr

/-- An edge of the call graph with its status. -/
structure CallEdge where
  src : CallKey
  dst : CallKey
  status : CallStatus
deriving DecidableEq, Repr

/-- State of one evaluation call: the call graph under construction
(`CallGraph` attributes `n_branches`, `n_calls`, `frontiere`, `_known_fc`,
`_current_node`, plus its node and edge sets).  `fcApps` additionally records,
in order, the names of the feature conditions actually applied to the
observation (the `node(observation)` calls), so that theorems can speak about
how many times a condition function was invoked. -/
structure CallState where
  nBranches : Nat
  nCalls : Nat
  frontier : List CallKey
  nodes : List TraceNode
  edges : List CallEdge
  knownFc : List (String × Nat)
  fcApps : List String
  current : CallKey
deriving Repr

/-- Trace-node lookup by key. -/
def traceNodeAt (s : CallState) (k : CallKey) : Option TraceNode :=
  s.nodes.find? (fun tn => tn.key = k)

/-- Register a trace node (`CallGraph.add_node`): networkx updates the payload
if the key is already present, otherwise appends. -/
def addTraceNode (s : CallState) (tn : TraceNode) : CallState :=
  if s.nodes.any (fun t => t.key = tn.key) then
    { s with nodes := s.nodes.map (fun t => if t.key = tn.key then tn else t) }
  else
    { s with nodes := s.nodes ++ [tn] }

/-- Register a call edge (`CallGraph.add_edge`): networkx updates the status
if the edge is already present, otherwise appends. -/
def addCallEdge (s : CallState) (e : CallEdge) : CallState :=
  if s.edges.any (fun d => d.src = e.src ∧ d.dst = e.dst) then
    { s with edges := s.edges.map (fun d =>
        if d.src = e.src ∧ d.dst = e.dst then { d with status := e.status } else d) }
  else
    { s with edges := s.edges ++ [e] }

/-- Set the status of an existing call edge (`CallGraph._update_edge_status`). -/
def updateEdgeStatus (s : CallState) (p k : CallKey) (st : CallStatus) : CallState :=
  { s with edges := s.edges.map (fun d =>
      if d.src = p ∧ d.dst = k then { d with status := st } else d) }

/-- Predecessors of a trace node, in edge-insertion order. -/
def predsOf (edges : List CallEdge) (k : CallKey) : List CallKey :=
  (edges.filter (fun e => e.dst = k)).map (fun e => e.src)

/-- One round of closing a key set under predecessors. -/
def ancestorsStep (edges : List CallEdge) (acc : List CallKey) : List CallKey :=
  acc.foldl (fun acc2 k =>
    acc2 ++ (predsOf edges k).filter (fun p => ¬ acc2.contains p)) acc

/-- Iterate predecessor closure; `edges.length` rounds always reach the fixed
point. -/
def ancestorsAux (edges : List CallEdge) : Nat → List CallKey → List CallKey
  | 0, acc => acc
  | n + 1, acc => ancestorsAux edges n (ancestorsStep edges acc)

/-- All strict ancestors of a trace node (`networkx.ancestors`): every node
with a directed path to `k`. -/
def ancestorsOf (s : CallState) (k : CallKey) : List CallKey :=
  ancestorsAux s.edges s.edges.length (predsOf s.edges k)

/-- Complexity of the heb node behind a frontier entry; the entry is always
registered (networkx raises a `KeyError` otherwise, never reached). -/
def complexityOfKey (s : CallState) (k : CallKey) : Int :=
  match traceNodeAt s k with
  | some tn => tn.hebNode.complexity
  | none => 0

/-- Index of the first minimum of a list, continuing from index `i` with
current best index `best` of value `bv` (`np.argmin` keeps the first). -/
def argminFrom (i best : Nat) (bv : Int) : List Int → Nat
  | [] => best
  | x :: xs => if x < bv then argminFrom (i + 1) i x xs else argminFrom (i + 1) best bv xs

/-- Index of the first minimal element (`np.argmin`); 0 on the empty list. -/
def argminIdx : List Int → Nat
  | [] => 0
  | x :: xs => argminFrom 1 0 x xs

/-- Outcome of `CallGraph._pop_from_frontiere`: frontier exhausted, an
internal lookup failure (the `IndexError` when a popped node has no parent or
the `KeyError` when its payload is missing — unreachable in well-formed
states), or a successfully popped node. -/
inductive PopResult
  | empty (s : CallState)
  | fail (s : CallState)
  | ok (k : CallKey) (s : CallState)
deriving Repr

/-- Inner loop of `CallGraph._pop_from_frontiere`: repeatedly take the
lowest-complexity frontier entry (first minimum, i.e. ties broken by insertion
order); a Behavior whose name already labels an ancestor trace node has its
incoming edge marked `failure` and is skipped, anything else is marked
`called` and returned.  Each iteration removes one frontier entry, so
`s.frontier.length + 1` fuel always reaches either a pop or the empty
frontier. -/
def popLoop (fuel : Nat) (s : CallState) : PopResult :=
  match fuel with
  | 0 => .fail s
  | fuel + 1 =>
    match s.frontier with
    | [] => .empty s
    | _ :: _ =>
      let i := argminIdx (s.frontier.map (complexityOfKey s))
      let k := s.frontier.getD i ⟨0, 0⟩
      let s1 := { s with frontier := s.frontier.eraseIdx i }
      match traceNodeAt s1 k with
      | none => .fail s1
      | some tn =>
        match (predsOf s1.edges k).head? with
        | none => .fail s1
        | some parent =>
          if tn.hebNode.kind = .behavior ∧
              (ancestorsOf s1 k).any (fun a =>
                match traceNodeAt s1 a with
                | some ta => ta.hebNode.name = tn.hebNode.name
                | none => False) then
            popLoop fuel (updateEdgeStatus s1 parent k .failure)
          else
            let s2 := updateEdgeStatus s1 parent k .called
            .ok k { s2 with nCalls := s2.nCalls + 1, current := k }

/-- `CallGraph._pop_from_frontiere`. -/
def popFromFrontiere (s : CallState) : PopResult :=
  popLoop (s.frontier.length + 1) s

/-- Register candidate nodes under the current trace node and push them onto
the frontier (`CallGraph._extend_frontiere`): the first candidate continues
the parent's branch at `rank + 1`, every further candidate opens a fresh
branch (`_make_new_branch`); each candidate is replaced by its registry entry
when its name is registered, recorded as a trace node, connected from the
parent with an `unexplored` edge, and appended to the frontier. -/
def extendStep (env : EvalEnv) (g : HGraph) (parent : CallKey)
    (acc : CallState × List CallKey × Nat) (node : HNode) :
    CallState × List CallKey × Nat :=
  let s := acc.1
  let ks := acc.2.1
  let i := acc.2.2
  let branchId := if 0 < i then s.nBranches + 1 else parent.branch
  let s := if 0 < i then { s with nBranches := s.nBranches + 1 } else s
  let k : CallKey := ⟨branchId, parent.rank + 1⟩
  let node := (env.registryNode node.name).getD node
  let s := addTraceNode s ⟨k, node, g⟩
  let s := addCallEdge s ⟨parent, k, .unexplored⟩
  (s, ks ++ [k], i + 1)

/-- See the doc comment above `extendStep`: the fold over the candidates. -/
def extendFrontiere (env : EvalEnv) (s : CallState) (g : HGraph) (ns : List HNode) :
    CallState :=
  let parent := s.current
  let folded := ns.foldl (extendStep env g parent) (s, [], 0)
  { folded.1 with frontier := folded.1.frontier ++ folded.2.1 }

/-- Errors an evaluation call can raise.  `noValidFrontiere` is the fatal
frontier-exhaustion error (`ValueError("No valid frontiere left in call_graph")`),
`invalidIndex` the fatal invalid-branch-index error raised when a feature
condition's returned index matches no outgoing edge, `unresolvedBehavior` the
`NotImplementedError` of a behavior with no buildable graph, `unknownNodeKind`
the defensive `ValueError` on an unknown `node.type`, `internalFailure` the
unreachable internal lookup failures, and `outOfFuel` the embedding's
artificial fuel exhaustion (no counterpart in the source, which just keeps
looping). -/
inductive EvalErr
  | noValidFrontiere
  | invalidIndex
  | unresolvedBehavior
  | unknownNodeKind
  | internalFailure
  | outOfFuel
deriving DecidableEq, Repr

/-- Main evaluation loop (`CallGraph.call_nodes` after `_extend_frontiere`):
pop the cheapest frontier entry and dispatch on its node kind.  An action
returns its value.  A behavior resolves to a graph (else the fatal unresolved
error) and recursion proceeds on the same call graph and frontier, which makes
the nested `call_nodes` while-loop one single loop — exactly this one.  A
feature condition is applied at most once (`_known_fc` cache), its successor
set with the returned index is the next candidate set (empty: the fatal
invalid-index error).  An empty node's candidate set is all its successors.
An exhausted frontier raises the fatal no-valid-frontiere error. -/
def runLoop (env : EvalEnv) : Nat → CallState → Except EvalErr String × CallState
  | 0, s => (.error .outOfFuel, s)
  | fuel + 1, s =>
    match popFromFrontiere s with
    | .empty s1 => (.error .noValidFrontiere, s1)
    | .fail s1 => (.error .internalFailure, s1)
    | .ok k s1 =>
      match traceNodeAt s1 k with
      | none => (.error .internalFailure, s1)
      | some tn =>
        match tn.hebNode.kind with
        | .action => (.ok tn.hebNode.value, s1)
        | .behavior =>
          match env.registryGraph tn.hebNode.name with
          | none => (.error .unresolvedBehavior, s1)
          | some g2 => runLoop env fuel (extendFrontiere env s1 g2 (rootsOf g2))
        | .featureCondition =>
          match s1.knownFc.find? (fun p => p.1 = tn.hebNode.name) with
          | some cached =>
            let succs := getSuccessorsWithIndex tn.graph tn.hebNode cached.2
            if succs.isEmpty then (.error .invalidIndex, s1)
            else runLoop env fuel (extendFrontiere env s1 tn.graph succs)
          | none =>
            let idx := env.fcEval tn.hebNode.name (s1.fcApps.count tn.hebNode.name)
            let s2 := { s1 with
              knownFc := s1.knownFc ++ [(tn.hebNode.name, idx)],
              fcApps := s1.fcApps ++ [tn.hebNode.name] }
            let succs := getSuccessorsWithIndex tn.graph tn.hebNode idx
            if succs.isEmpty then (.error .invalidIndex, s2)
            else runLoop env fuel (extendFrontiere env s2 tn.graph succs)
        | .empty =>
          runLoop env fuel (extendFrontiere env s1 tn.graph (successorsOf tn.graph tn.hebNode))

/-- Root call key `(0, 0)`. -/
def rootKey : CallKey := ⟨0, 0⟩

/-- Modelled from the spec: the new-style `HEBGraph.__call__` seeding the
evaluation is absent from the sources (only `CallGraph.call_nodes` and
`Behavior.__call__` are).  Per the spec, `evaluate(graph, observation)`
maintains a call graph seeded with a root trace node for the subject behavior
(`add_root`) and evaluates the graph's roots as the first candidate set. -/
def initialState (g : HGraph) : CallState :=
  { nBranches := 0, nCalls := 0, frontier := [],
    nodes := [⟨rootKey, g.behavior, g⟩], edges := [],
    knownFc := [], fcApps := [], current := rootKey }

/-- Evaluate a behavior graph against the observation baked into `env`,
returning the action value or a fatal error, together with the final call
graph. -/
def evalGraph (env : EvalEnv) (g : HGraph) (fuel : Nat) :
    Except EvalErr String × CallState :=
  runLoop env fuel (extendFrontiere env (initialState g) g (rootsOf g))

/-! ### Unrolling engine (`hebg/unrolling.py`)

`_unroll_graph` starts from `copy(graph)`: `copy.copy` on a networkx graph
copies the object but shares its underlying adjacency and node dictionaries,
so the working graph aliases the input graph's storage until the first
`compose_heb_graphs` (which builds a fresh graph).  Mutations performed while
aliased (the cut-looping branch's `add_edge`/`remove_node`) therefore hit the
input graph object.  The embedding threads this aliasing explicitly: every
unroll call returns, besides the value-level result, the state of its input
graph object after the call.  Graph objects of distinct behaviors are
distinct (each behavior owns its lazily built graph and the registry is keyed
by name), so a sub-behavior's unrolling never mutates the caller's input. -/

/-- Environment of an unroll session: what graph a behavior name resolves to
(its own built graph, else the `all_behaviors` registry entry's graph; `none`
models `NotImplementedError`). -/
structure UnrollEnv where
  resolveGraph : String → Option HGraph

/-- Session map `_unrolled_behaviors`: behavior name, mapped to `none` while
its unrolling is in progress (the looping sentinel) or to the finished
unrolled graph. -/
abbrev UMap := List (String × Option HGraph)

/-- Set (overwrite or append) an entry of the session map. -/
def umapSet (m : UMap) (name : String) (v : Option HGraph) : UMap :=
  if (m : List _).any (fun p => p.1 = name) then
    (m : List _).map (fun p => if p.1 = name then (name, v) else p)
  else
    (m : List _) ++ [(name, v)]

/-- Lookup in the session map. -/
def umapFind (m : UMap) (name : String) : Option (Option HGraph) :=
  ((m : List _).find? (fun p => p.1 = name)).map (fun p => p.2)

/-- Add or update an indexed edge (networkx `add_edge`: parallel edges are
forbidden, re-adding overwrites the data). -/
def addEdgeU (es : List GEdge) (e : GEdge) : List GEdge :=
  if es.any (fun d => d.src = e.src ∧ d.dst = e.dst) then
    es.map (fun d => if d.src = e.src ∧ d.dst = e.dst then { d with index := e.index } else d)
  else
    es ++ [e]

/-- `HEBGraph.add_edge` during splicing: both endpoints already belong to the
graph, so only the edge set changes. -/
def graphAddEdge (g : HGraph) (e : GEdge) : HGraph :=
  { g with edges := addEdgeU g.edges e }

/-- `graph.remove_node(node)`: drop the node and all incident edges
(name-keyed). -/
def graphRemoveNode (g : HGraph) (name : String) : HGraph :=
  { g with nodes := g.nodes.filter (fun n => ¬ n.name = name),
           edges := g.edges.filter (fun e => ¬ e.src = name ∧ ¬ e.dst = name) }

/-- `compose_heb_graphs`: a fresh graph with the reference graph's behavior,
the union of the node sets (an already-present name keeps its first node
object — networkx keys nodes by equality, i.e. by name) and the union of the
edge sets (the other graph's data takes precedence). -/
def composeHebGraphs (g h : HGraph) : HGraph :=
  { behavior := g.behavior,
    nodes := g.nodes ++ h.nodes.filter (fun n => ¬ g.nodes.any (fun m => m.name = n.name)),
    edges := h.edges.foldl addEdgeU g.edges }

/-- Separator `BEHAVIOR_SEPARATOR` used when renaming inlined sub-graphs. -/
def behaviorSeparator : String := ">"

/-- `_add_prefix_to_graph`: rename every node (a renamed copy of the node
object, leaving the original node objects untouched) and every edge endpoint
in place. -/
def addPreToGraph (g : HGraph) (p : String) : HGraph :=
  { g with nodes := g.nodes.map (fun n => { n with name := p ++ n.name }),
           edges := g.edges.map (fun e => { e with src := p ++ e.src, dst := p ++ e.dst }) }

/-- In-edges of the node named `name`, as `(source, index)` pairs
(`graph.in_edges(node, data=True)`). -/
def inEdgesOf (g : HGraph) (name : String) : List (String × Nat) :=
  (g.edges.filter (fun e => e.dst = name)).map (fun e => (e.src, e.index))

/-- Sibling alternatives of a behavior node (`_unroll_graph`'s
`new_alternatives`): for every in-edge of the node, the other successors of
that predecessor reached through the same edge index. -/
def alternativesOf (g : HGraph) (node : HNode) : List HNode :=
  (g.edges.filter (fun e => e.dst = node.name)).foldl (fun acc e =>
    acc ++ ((g.edges.filter (fun e2 => e2.src = e.src)).filterMap (fun e2 =>
      if e2.index = e.index ∧ ¬ e2.dst = node.name then nodeNamed g e2.dst else none)))
    []

/-- Result of one (possibly nested) `_unroll_graph` call: the unrolled graph,
the `is_looping` flag, the session map after the call, and the state of the
call's own input graph object after the call (mutated only by cut-looping
branches executed while the working graph still aliases the input). -/
structure UnrollRes where
  result : HGraph
  looping : Bool
  umap : UMap
  inputAfter : HGraph

/-- Working state of the `for node in list(unrolled_graph.nodes())` loop of
`_unroll_graph`. -/
structure UnrollLoopState where
  working : HGraph
  aliased : Bool
  inputState : HGraph
  curAlts : List HNode
  umap : UMap
  looping : Bool

/-- `_unrolled_behavior_graph`: reuse the session map entry when present (a
`none` entry means the behavior's own unrolling is in progress, i.e. this
branch loops); otherwise resolve and recursively unroll the behavior's graph
and cache it.  The recursive `_unroll_graph` call at one less fuel is passed
in as `recG`. -/
def unrolledBehaviorGraph (recG : List HNode → UMap → HGraph → UnrollRes)
    (env : UnrollEnv) (name : String) (curAlts : List HNode) (umap : UMap) :
    Option HGraph × Bool × UMap :=
  match umapFind umap name with
  | some cached => (cached, cached.isNone, umap)
  | none =>
    match env.resolveGraph name with
    | none => (none, false, umap)
    | some sub =>
      let res := recG curAlts umap sub
      (some res.result, res.looping, umapSet res.umap name (some res.result))

/-- `_unroll_behavior`: get the behavior's unrolled sub-graph; a looping
branch under `cut_looping_alternatives` reconnects the behavior's in-edges to
the current sibling alternatives and removes the behavior node — mutating the
input object when the working graph still aliases it; an unresolvable
behavior is kept as an opaque leaf; otherwise the (optionally renamed)
sub-graph is spliced in through a fresh composed graph, which ends the
aliasing. -/
def unrollBehavior (recG : List HNode → UMap → HGraph → UnrollRes)
    (env : UnrollEnv) (addPre cut : Bool)
    (node : HNode) (st : UnrollLoopState) : UnrollLoopState :=
  let sub := unrolledBehaviorGraph recG env node.name st.curAlts st.umap
  let nodeGraph := sub.1
  let isLooping := sub.2.1
  let umap := sub.2.2
  if isLooping ∧ cut then
    if st.curAlts.isEmpty then { st with umap := umap, looping := st.looping ∨ isLooping }
    else
      let working := st.curAlts.foldl (fun w alt =>
        (inEdgesOf w node.name).foldl (fun w2 pe =>
          graphAddEdge w2 ⟨pe.1, alt.name, pe.2⟩) w) st.working
      let working := graphRemoveNode working node.name
      { st with working := working, umap := umap,
                inputState := if st.aliased then working else st.inputState }
  else
    match nodeGraph with
    | none => { st with umap := umap, looping := st.looping ∨ isLooping }
    | some ng =>
      let ng := if addPre ∧ 1 < ng.nodes.length then
          addPreToGraph ng (node.name ++ behaviorSeparator) else ng
      let umap := if addPre ∧ 1 < ng.nodes.length then
          umapSet umap node.name (some ng) else umap
      let composed := composeHebGraphs st.working ng
      let composed := (inEdgesOf composed node.name).foldl (fun w pe =>
        (rootsOf ng).foldl (fun w2 root => graphAddEdge w2 ⟨pe.1, root.name, pe.2⟩) w) composed
      let working := graphRemoveNode composed node.name
      { st with working := working, aliased := false, umap := umap,
                looping := st.looping ∨ isLooping }

/-- Loop body fold of `_unroll_graph` over the behavior nodes: the inherited
alternatives are refreshed from the input object's current in-edges before
each behavior is unrolled by `bstep`. -/
def unrollNodes (bstep : HNode → UnrollLoopState → UnrollLoopState) :
    List HNode → UnrollLoopState → UnrollLoopState
  | [], st => st
  | node :: rest, st =>
    let newAlts := alternativesOf st.inputState node
    let curAlts := if newAlts.isEmpty then st.curAlts else newAlts
    let st2 := bstep node { st with curAlts := curAlts }
    unrollNodes bstep rest st2

/-- `_unroll_graph`: record the subject as in progress, then process every
Behavior node of the (shared-storage) working copy in node-insertion order. -/
def unrollG (env : UnrollEnv) (addPre cut : Bool) :
    Nat → List HNode → UMap → HGraph → UnrollRes
  | 0, _, umap, g => ⟨g, false, umap, g⟩
  | fuel + 1, curAlts, umap, g =>
    let umap := umapSet umap g.behavior.name none
    let behaviorNodes := g.nodes.filter (fun n => n.kind = NodeKind.behavior)
    let st := unrollNodes
      (unrollBehavior (unrollG env addPre cut fuel) env addPre cut)
      behaviorNodes ⟨g, true, g, curAlts, umap, false⟩
    ⟨st.working, st.looping, st.umap, st.inputState⟩

/-- `unroll_graph(graph, add_prefix, cut_looping_alternatives)`: the returned
unrolled graph. -/
def unrollGraph (env : UnrollEnv) (g : HGraph) (addPre cut : Bool) (fuel : Nat) :
    HGraph :=
  (unrollG env addPre cut fuel [] [] g).result

/-- The state of the input graph object after `unroll_graph` returns. -/
def unrollInputAfter (env : UnrollEnv) (g : HGraph) (addPre cut : Bool) (fuel : Nat) :
    HGraph :=
  (unrollG env addPre cut fuel [] [] g).inputAfter

/-! ### Requirement graph builder (`hebg/requirements_graph.py`) -/

/-- Predecessors of the node named `name`, in edge-insertion order. -/
def predecessorsOf (g : HGraph) (name : String) : List String :=
  (g.edges.filter (fun e => e.dst = name)).map (fun e => e.src)

/-- One round of closing a name set under successors. -/
def descendantsStep (es : List GEdge) (acc : List String) : List String :=
  acc.foldl (fun acc2 n =>
    acc2 ++ ((es.filter (fun e => e.src = n)).map (fun e => e.dst)).filter
      (fun d => ¬ acc2.contains d)) acc

/-- Iterate successor closure; `es.length` rounds always reach the fixed
point. -/
def descendantsAux (es : List GEdge) : Nat → List String → List String
  | 0, acc => acc
  | n + 1, acc => descendantsAux es n (descendantsStep es acc)

/-- All strict descendants of the node named `name` (`networkx.descendants`):
every node name reachable from it. -/
def descendantsOf (es : List GEdge) (name : String) : List String :=
  descendantsAux es es.length ((es.filter (fun e => e.src = name)).map (fun e => e.dst))

/-- Requirement-degree table: subject behavior name → behavior-node name →
degree (a total function; absent entries count 0, matching the source's
init-to-0-on-first-touch dictionaries). -/
abbrev Deg := String → String → Int

/-- Point update of a degree table. -/
def degAdd (rd : Deg) (a n : String) (v : Int) : Deg :=
  fun a2 n2 => if a2 = a ∧ n2 = n then rd a2 n2 + v else rd a2 n2

/-- `_cut_alternatives_to_empty_node`: take the Empty node's first successor
and the index of the edge to it; all predecessors of that successor through
the same index are the alternatives; in a copy of the graph with those
alternative edges removed, every Behavior reachable from an alternative has
its requirement degree decremented.  `none` models the `IndexError` when the
Empty node has no successor. -/
def cutAlternativesToEmptyNode (g : HGraph) (node : HNode) (rd : Deg) : Option Deg :=
  match (successorsOf g node).head? with
  | none => none
  | some s =>
    match (g.edges.find? (fun e => e.src = node.name ∧ e.dst = s.name)).map
        (fun e => e.index) with
    | none => none
    | some emptyIdx =>
      let alternatives := (predecessorsOf g s.name).filter (fun alt =>
        (g.edges.find? (fun e => e.src = alt ∧ e.dst = s.name)).map (fun e => e.index)
          = some emptyIdx)
      let cutEdges := g.edges.filter (fun e =>
        ¬ (e.dst = s.name ∧ alternatives.contains e.src))
      some (alternatives.foldl (fun rd2 alt =>
        ((descendantsOf cutEdges alt).filter (fun d =>
            (nodeNamed g d).map (fun n => n.kind) = some NodeKind.behavior)).foldl
          (fun rd3 fb => degAdd rd3 g.behavior.name fb (-1)) rd2) rd)

/-- The requirement graph: behavior names and `requirement → dependent` edges
carrying a 1-based fan-out index. -/
structure ReqGraph where
  nodes : List String
  edges : List (String × String × Nat)
deriving DecidableEq, Repr

/-- Add a requirement edge (networkx `add_edge`: update-or-append). -/
def reqAddEdge (es : List (String × String × Nat)) (e : String × String × Nat) :
    List (String × String × Nat) :=
  if es.any (fun d => d.1 = e.1 ∧ d.2.1 = e.2.1) then
    es.map (fun d => if d.1 = e.1 ∧ d.2.1 = e.2.1 then e else d)
  else
    es ++ [e]

/-- Requirement degrees after the per-Empty-node decrements (first loop of
`build_requirement_graph`, which also resets each subject's table) and the +1
per Behavior-node occurrence (second loop).  `none` models the `IndexError`
of a successor-less Empty node. -/
def requirementDegrees (graphs : List HGraph) : Option Deg := do
  let rdInit : Deg := fun _ _ => 0
  let rd ← graphs.foldlM (fun (rd : Deg) g => do
    let rd : Deg := fun a n => if a = g.behavior.name then 0 else rd a n
    g.nodes.foldlM (fun (rd2 : Deg) node =>
      if node.kind = NodeKind.empty then cutAlternativesToEmptyNode g node rd2
      else some rd2) rd) rdInit
  some (graphs.foldl (fun (rd : Deg) g =>
    g.nodes.foldl (fun (rd2 : Deg) node =>
      if node.kind = NodeKind.behavior then degAdd rd2 g.behavior.name node.name 1
      else rd2) rd) rd)

/-- One addition of the third loop of `build_requirement_graph`, for the pair
`(requirement node name, dependent subject name)`: ensure the requirement
node is present and add the edge `requirement → dependent` with index one
plus the number of requirement edges already outgoing from the requirement
node. -/
def reqAdd (rq : ReqGraph) (p : String × String) : ReqGraph :=
  let withNode := if rq.nodes.contains p.1 then rq
    else { rq with nodes := rq.nodes ++ [p.1] }
  let idx := (withNode.edges.filter (fun e => e.1 = p.1)).length + 1
  { withNode with edges := reqAddEdge withNode.edges (p.1, p.2, idx) }

/-- Third loop of `build_requirement_graph`: one `reqAdd` for every Behavior
node of every graph whose final requirement degree is not 0. -/
def addRequirementEdges (graphs : List HGraph) (rd : Deg) : ReqGraph :=
  graphs.foldl (fun (rq : ReqGraph) g =>
    g.nodes.foldl (fun (rq2 : ReqGraph) node =>
      if node.kind = NodeKind.behavior ∧ ¬ rd g.behavior.name node.name = 0 then
        reqAdd rq2 (node.name, g.behavior.name)
      else rq2) rq) ⟨graphs.map (fun g => g.behavior.name), []⟩

/-- `build_requirement_graph` (level annotation aside: the trailing
`compute_levels` call only annotates levels and does not change the node or
edge sets). -/
def buildRequirementGraph (graphs : List HGraph) : Option ReqGraph := do
  let rd ← requirementDegrees graphs
  some (addRequirementEdges graphs rd)

/-- The `(requirement node name, dependent subject name)` pairs for which the
third loop of `build_requirement_graph` performs an addition, in processing
order. -/
def reqPairs (graphs : List HGraph) (rd : Deg) : List (String × String) :=
  graphs.flatMap (fun g =>
    (g.nodes.filter (fun n =>
      n.kind = NodeKind.behavior ∧ ¬ rd g.behavior.name n.name = 0)).map
      (fun n => (n.name, g.behavior.name)))

/-! ### Complexity metrics (`hebg/metrics/complexity/complexities.py`) -/

/-- A usage histogram: nodes with their usage counts, in insertion order. -/
abbrev Histogram := List (HNode × Int)

/-- Table of histograms per behavior name (`used_nodes_all`, keyed by nodes,
i.e. by name). -/
abbrev UsedAll := List (String × Histogram)

/-- Histogram lookup. -/
def usedFind (u : UsedAll) (name : String) : Option Histogram :=
  (u.find? (fun p => p.1 = name)).map (fun p => p.2)

/-- Name-keyed count table for `previous_used_nodes`. -/
abbrev PrevUsed := List (String × Int)

/-- Count lookup, absent keys counting 0. -/
def prevGet (p : PrevUsed) (name : String) : Int :=
  ((p.find? (fun q => q.1 = name)).map (fun q => q.2)).getD 0

/-- `update_sum_dict` for one key: add to an existing entry or append. -/
def prevAddOne (p : PrevUsed) (name : String) (v : Int) : PrevUsed :=
  if p.any (fun q => q.1 = name) then
    p.map (fun q => if q.1 = name then (q.1, q.2 + v) else q)
  else
    p ++ [(name, v)]

/-- `update_sum_dict(prev, histogram)`: node-wise additive merge. -/
def prevAddHist (p : PrevUsed) (h : Histogram) : PrevUsed :=
  h.foldl (fun p2 nk => prevAddOne p2 nk.1.name nk.2) p

/-- Loop body of `general_complexity` over one histogram entry.  A Behavior
node that itself has a histogram in `used_nodes_all` is recursively expanded
(through `recC`, the recursive call at one less fuel): its recursively
computed net complexity replaces its declared complexity and `k` times its
saved complexity is added to both the total and the saved amount, and the
previously-used counts absorb its whole histogram; any other node contributes
its declared complexity.  Savings (`scomplexity`) apply only to Behavior and
Action nodes. -/
def gcStep (usedAll : UsedAll) (sc : HNode → Int → Int → Int)
    (kc : HNode → Int → Int) (recC : String → PrevUsed → Option (Int × Int))
    (acc : Int × Int × PrevUsed) (nk : HNode × Int) :
    Option (Int × Int × PrevUsed) := do
  let node := nk.1
  let nUsed := nk.2
  let total := acc.1
  let saved := acc.2.1
  let prev := acc.2.2
  let nPrev := prevGet prev node.name
  let expanded ←
    if node.kind = NodeKind.behavior ∧ (usedFind usedAll node.name).isSome then do
      let rc ← recC node.name prev
      let prev := prevAddHist prev ((usedFind usedAll node.name).getD [])
      pure (rc.1, total + rc.2 * kc node nUsed, saved + rc.2 * kc node nUsed, prev)
    else
      pure (node.complexity, total, saved, prev)
  let nodeComplexity := expanded.1
  let total := expanded.2.1 + nodeComplexity * kc node nUsed
  let saved := if node.kind = NodeKind.behavior ∨ node.kind = NodeKind.action then
      expanded.2.2.1 + nodeComplexity * sc node nUsed nPrev
    else expanded.2.2.1
  let prev := prevAddOne expanded.2.2.2 node.name nUsed
  pure (total, saved, prev)

/-- `general_complexity`: iterate `gcStep` over the behavior's histogram
accumulating the total and saved complexity, returning
`(total - saved, saved)`.  Fuel bounds the recursion depth (the source
recurses without a guard); `none` also models the `KeyError` of a missing
histogram. -/
def generalComplexity (usedAll : UsedAll) (sc : HNode → Int → Int → Int)
    (kc : HNode → Int → Int) : Nat → String → PrevUsed → Option (Int × Int)
  | 0, _, _ => none
  | fuel + 1, behaviorName, prev0 =>
    match usedFind usedAll behaviorName with
    | none => none
    | some hist => do
      let res ← hist.foldlM
        (gcStep usedAll sc kc (fun n p => generalComplexity usedAll sc kc fuel n p))
        ((0 : Int), (0 : Int), prev0)
      some (res.1 - res.2.1, res.2.1)

/-- `learning_complexity`: `general_complexity` with
`scomplexity(node, k, p) = max(0, min(k, p + k - 1))` and
`kcomplexity(node, k) = k`. -/
def learningComplexity (usedAll : UsedAll) (fuel : Nat) (behaviorName : String)
    (prev : PrevUsed) : Option (Int × Int) :=
  generalComplexity usedAll (fun _ k p => max 0 (min k (p + k - 1)))
    (fun _ k => k) fuel behaviorName prev

/-- The formula claimed by the spec for `learning_complexity`, stated as an
independent definition to compare with the embedded source: every node with
usage count `k` and prior accumulated count `p` contributes
`complexity * k` to the raw total, and Behavior and Action nodes additionally
contribute `complexity * max(0, min(k, p + k - 1))` to the saved amount; the
result is `(total - saved, saved)`. -/
def claimedLearningComplexity (usedAll : UsedAll) (behaviorName : String)
    (prev : PrevUsed) : Option (Int × Int) :=
  match usedFind usedAll behaviorName with
  | none => none
  | some hist =>
    let total := (hist.map (fun nk => nk.1.complexity * nk.2)).sum
    let saved := (hist.map (fun nk =>
      if nk.1.kind = NodeKind.behavior ∨ nk.1.kind = NodeKind.action then
        nk.1.complexity * max 0 (min nk.2 (prevGet prev nk.1.name + nk.2 - 1))
      else 0)).sum
    some (total - saved, saved)

/-! ### Node construction (`hebg/node.py`) -/

/-- The authorised `node_type` strings of `Node.NODE_TYPES` as found in the
source: `("action", "feature_condition", "option", "empty")`. -/
def nodeTypesList : List String := ["action", "feature_condition", "option", "empty"]

/-- `Node.__init__`: store the name and the kind tag, raising `ValueError`
(the error branch) when the tag is not among `NODE_TYPES`. -/
def mkNode (name nodeType : String) : Except String (String × String) :=
  if nodeTypesList.contains nodeType then .ok (name, nodeType)
  else .error "node_type not in authorised node_types"

/-- `Behavior.__init__`: a Behavior delegates to `Node.__init__` with the
kind tag "behavior". -/
def mkBehaviorNode (name : String) : Except String (String × String) :=
  mkNode name "behavior"

/-! ### The looping fixture `GatherWood` / `GetNewAxe`
(`tests/examples/behaviors/loop_with_alternative.py`).

Explicit costs become the node complexity ordering the frontier (the spec's
"priority collection ordered by ascending node complexity/cost"): `Punch tree`
has cost 2.0 and `Summon axe out of thin air` cost 10.0.  Modelled from the
spec: the revision of `hebg/node.py` wiring the `cost` keyword into the
frontier ordering is absent from the sources (the present revision predates
it), and the deterministic structural default complexity of the remaining
nodes is not specified numerically; it is embedded as the constant 1. -/

/-- Default structural complexity used by fixture nodes without an explicit
cost (see the fixture section comment). -/
def defaultComplexity : Int := 1

/-- Feature-condition node `HasItem("axe")`, named "Has axe ?". -/
def hasAxeFC : HNode := ⟨"Has axe ?", .featureCondition, defaultComplexity, ""⟩

/-- Feature-condition node `HasItem("wood")`, named "Has wood ?". -/
def hasWoodFC : HNode := ⟨"Has wood ?", .featureCondition, defaultComplexity, ""⟩

/-- Action node `Action("Punch tree", cost=2.0)`. -/
def punchTree : HNode := ⟨"Punch tree", .action, 2, "Punch tree"⟩

/-- Action node `Action("Use axe on tree")`. -/
def useAxe : HNode := ⟨"Use axe on tree", .action, defaultComplexity, "Use axe on tree"⟩

/-- Action node `Action("Summon axe out of thin air", cost=10.0)`. -/
def summonAxe : HNode :=
  ⟨"Summon axe out of thin air", .action, 10, "Summon axe out of thin air"⟩

/-- Action node `Action("Craft axe")`. -/
def craftAxe : HNode := ⟨"Craft axe", .action, defaultComplexity, "Craft axe"⟩

/-- Behavior node (and registry entry) for `GatherWood`. -/
def gatherWoodNode : HNode := ⟨"Gather wood", .behavior, defaultComplexity, ""⟩

/-- Behavior node (and registry entry) for `GetNewAxe`. -/
def getNewAxeNode : HNode := ⟨"Get new axe", .behavior, defaultComplexity, ""⟩

/-- The `GatherWood` behavior graph: "Has axe ?" false-branch offers
`Punch tree` (cost 2.0) and the `Get new axe` behavior, true-branch
`Use axe on tree`. -/
def gatherWoodGraph : HGraph :=
  { behavior := gatherWoodNode,
    nodes := [hasAxeFC, punchTree, getNewAxeNode, useAxe],
    edges := [⟨"Has axe ?", "Punch tree", 0⟩, ⟨"Has axe ?", "Get new axe", 0⟩,
              ⟨"Has axe ?", "Use axe on tree", 1⟩] }

/-- The `GetNewAxe` behavior graph: "Has wood ?" false-branch offers the
`Gather wood` behavior and `Summon axe out of thin air` (cost 10.0),
true-branch `Craft axe`. -/
def getNewAxeGraph : HGraph :=
  { behavior := getNewAxeNode,
    nodes := [hasWoodFC, gatherWoodNode, summonAxe, craftAxe],
    edges := [⟨"Has wood ?", "Gather wood", 0⟩,
              ⟨"Has wood ?", "Summon axe out of thin air", 0⟩,
              ⟨"Has wood ?", "Craft axe", 1⟩] }

/-- Evaluation environment of `build_looping_behaviors`: both behaviors are
registered under their names, and `HasItem(item)` returns whether `item` is in
the observation (an inventory, embedded as a list of item names). -/
def loopEnv (obs : List String) : EvalEnv :=
  { registryNode := fun name =>
      if name = "Gather wood" then some gatherWoodNode
      else if name = "Get new axe" then some getNewAxeNode
      else none,
    registryGraph := fun name =>
      if name = "Gather wood" then some gatherWoodGraph
      else if name = "Get new axe" then some getNewAxeGraph
      else none,
    fcEval := fun name _ =>
      if name = "Has axe ?" then (if "axe" ∈ obs then 1 else 0)
      else if name = "Has wood ?" then (if "wood" ∈ obs then 1 else 0)
      else 0 }

/-! ### Small concrete fixtures used by individual claims -/

/-- A behavior whose graph's only node is a reference back to itself: the
single node of `selfLoopGraph` is the behavior node of its own subject. -/
def selfLoopNode : HNode := ⟨"Auto", .behavior, 1, ""⟩

/-- The graph of the self-referencing behavior (only path routes back to the
behavior itself, no alternative branch). -/
def selfLoopGraph : HGraph := { behavior := selfLoopNode, nodes := [selfLoopNode], edges := [] }

/-- Environment registering the self-referencing behavior under its name. -/
def selfLoopEnv : EvalEnv :=
  { registryNode := fun name => if name = "Auto" then some selfLoopNode else none,
    registryGraph := fun name => if name = "Auto" then some selfLoopGraph else none,
    fcEval := fun _ _ => 0 }

/-- A feature condition whose semantics (below) return branch index 7,
matching no outgoing edge. -/
def badFC : HNode := ⟨"badfc", .featureCondition, 0, ""⟩

/-- Cheap action behind `badFC`'s only edge (index 0). -/
def badTarget : HNode := ⟨"target", .action, 1, "target"⟩

/-- A viable alternative root action, more expensive than `badFC`, which an
invalid branch index must nevertheless not fall back to. -/
def altAction : HNode := ⟨"alt", .action, 5, "alt"⟩

/-- Graph with roots `badFC` (cheap) and `altAction`: `badFC` is popped
first and returns an index with no matching outgoing edge. -/
def badIdxGraph : HGraph :=
  { behavior := ⟨"R", .behavior, 1, ""⟩,
    nodes := [badFC, badTarget, altAction],
    edges := [⟨"badfc", "target", 0⟩] }

/-- Environment whose feature condition returns branch index 7. -/
def badIdxEnv : EvalEnv :=
  { registryNode := fun _ => none, registryGraph := fun _ => none,
    fcEval := fun _ _ => 7 }

/-- Call state after seeding the evaluation of `badIdxGraph`. -/
def badIdxState : CallState :=
  extendFrontiere badIdxEnv (initialState badIdxGraph) badIdxGraph (rootsOf badIdxGraph)

/-- Call state reached after popping `badFC` from `badIdxState` (the cheaper
of the two seeded roots; the viable `altAction` stays on the frontier). -/
def badIdxPopState : CallState :=
  { nBranches := 1, nCalls := 1,
    frontier := [⟨1, 1⟩],
    nodes := [⟨⟨0, 0⟩, badIdxGraph.behavior, badIdxGraph⟩,
              ⟨⟨0, 1⟩, badFC, badIdxGraph⟩,
              ⟨⟨1, 1⟩, altAction, badIdxGraph⟩],
    edges := [⟨⟨0, 0⟩, ⟨0, 1⟩, CallStatus.called⟩,
              ⟨⟨0, 0⟩, ⟨1, 1⟩, CallStatus.unexplored⟩],
    knownFc := [], fcApps := [], current := ⟨0, 1⟩ }

/-- Subject node of the direct self-referencing unroll fixture. -/
def cexANode : HNode := ⟨"A", .behavior, 1, ""⟩

/-- Feature condition of the unroll fixture. -/
def cexCond : HNode := ⟨"c", .featureCondition, 1, ""⟩

/-- Alternative action of the unroll fixture. -/
def cexAlt : HNode := ⟨"a", .action, 1, "a"⟩

/-- A graph that directly references its own subject behavior, with a sibling
alternative on the same branch index: "c" offers both the behavior node "A"
itself and the action "a" on index 0. -/
def cexSelfRefGraph : HGraph :=
  { behavior := cexANode,
    nodes := [cexCond, cexANode, cexAlt],
    edges := [⟨"c", "A", 0⟩, ⟨"c", "a", 0⟩] }

/-- Unroll environment in which no behavior's graph is resolvable. -/
def unresolvableEnv : UnrollEnv := { resolveGraph := fun _ => none }

/-- Behavior node "B" with a large declared complexity, used to separate the
declared complexity from the recursively computed one. -/
def cexBNode : HNode := ⟨"B", .behavior, 100, ""⟩

/-- Action node of `B`'s histogram. -/
def cexA0 : HNode := ⟨"a0", .action, 1, "a0"⟩

/-- Usage table in which behavior "A" uses behavior "B" once and "B" uses
action "a0" five times. -/
def cexUsedAll : UsedAll := [("A", [(cexBNode, 1)]), ("B", [(cexA0, 5)])]

/-- Empty node `E1` of the negative-degree requirement fixture. -/
def r5E1 : HNode := ⟨"E1", .empty, 1, ""⟩

/-- Empty node `E2` of the negative-degree requirement fixture. -/
def r5E2 : HNode := ⟨"E2", .empty, 1, ""⟩

/-- Feature condition `X` of the negative-degree requirement fixture. -/
def r5X : HNode := ⟨"X", .featureCondition, 1, ""⟩

/-- Shared successor `S` of the negative-degree requirement fixture. -/
def r5S : HNode := ⟨"S", .action, 1, "S"⟩

/-- Behavior node `B` of the negative-degree requirement fixture. -/
def r5B : HNode := ⟨"B", .behavior, 1, ""⟩

/-- Graph of behavior "A" in which both empty nodes `E1` and `E2` share the
successor `S` with the alternative `X`, and `X` leads to behavior `B`: each
empty-node cut decrements `B` once (via `X`), so `B`'s final requirement
degree is `-2 + 1 = -1`. -/
def r5Graph : HGraph :=
  { behavior := ⟨"A", .behavior, 1, ""⟩,
    nodes := [r5E1, r5E2, r5X, r5S, r5B],
    edges := [⟨"E1", "S", 0⟩, ⟨"E2", "S", 0⟩, ⟨"X", "S", 0⟩, ⟨"X", "B", 1⟩] }

/-- Graph of behavior "A" holding the single behavior node `B` (requirement
degree `+1`), used as a concrete input of the requirement-edge theorem. -/
def w5Graph : HGraph :=
  { behavior := ⟨"A", .behavior, 1, ""⟩, nodes := [r5B], edges := [] }

/-! ### Predicates and projections used by the theorems -/

/-- The call state carried by any pop outcome. -/
def PopResult.state : PopResult → CallState
  | .empty s => s
  | .fail s => s
  | .ok _ s => s

/-- A key is registered in the call graph. -/
def keyMem (s : CallState) (k : CallKey) : Prop :=
  ∃ tn ∈ s.nodes, tn.key = k

/-- Number of incoming call-graph edges of a key. -/
def inDeg (edges : List CallEdge) (k : CallKey) : Nat :=
  edges.countP (fun e => e.dst = k)

/-- Structural invariant of the call graph: trace-node keys are pairwise
distinct, every non-root trace node has exactly one incoming edge and the
root none, edges connect registered keys, branch numbers are bounded by the
branch counter, the ranks present on one branch form an interval, and every
frontier entry is a registered leaf (`(branch, rank + 1)` unregistered) of
positive rank; the frontier holds no duplicates. -/
def TreeWF (s : CallState) : Prop :=
  (s.nodes.map TraceNode.key).Nodup ∧
  (∀ tn ∈ s.nodes, tn.key = rootKey ∨ inDeg s.edges tn.key = 1) ∧
  inDeg s.edges rootKey = 0 ∧
  (∀ e ∈ s.edges, keyMem s e.src ∧ keyMem s e.dst) ∧
  (∀ tn ∈ s.nodes, tn.key.branch ≤ s.nBranches) ∧
  (∀ b r1 r2 r, keyMem s ⟨b, r1⟩ → keyMem s ⟨b, r2⟩ → r1 ≤ r → r ≤ r2 →
    keyMem s ⟨b, r⟩) ∧
  (∀ k ∈ s.frontier, keyMem s k ∧ ¬ keyMem s ⟨k.branch, k.rank + 1⟩ ∧ 1 ≤ k.rank) ∧
  s.frontier.Nodup

/-- Bookkeeping invariant of the feature-condition cache: the cached names
are exactly the applied names (in order), no condition was applied twice, and
every cached index is the value of the condition's first application. -/
def FcInv (env : EvalEnv) (s : CallState) : Prop :=
  s.knownFc.map Prod.fst = s.fcApps ∧ s.fcApps.Nodup ∧
  ∀ p ∈ s.knownFc, p.2 = env.fcEval p.1 0

/-! ## Theorems -/

/-- Results other than fuel exhaustion are stable under additional fuel. -/
theorem runLoop_succ (env : EvalEnv) :
    ∀ (fuel : Nat) (s : CallState),
      (runLoop env fuel s).1 ≠ Except.error EvalErr.outOfFuel →
      runLoop env (fuel + 1) s = runLoop env fuel s := by
  intro fuel
  induction fuel with
  | zero => intro s h; exact absurd rfl h
  | succ n ih =>
    intro s h
    rw [runLoop] at h
    rw [runLoop, runLoop]
    cases hp : popFromFrontiere s with
    | empty s1 => simp only [hp]
    | fail s1 => simp only [hp]
    | ok k s1 =>
      simp only [hp] at h ⊢
      cases htn : traceNodeAt s1 k with
      | none => simp only [htn]
      | some tn =>
        simp only [htn] at h ⊢
        cases hk : tn.hebNode.kind with
        | action => simp only [hk]
        | behavior =>
          simp only [hk] at h ⊢
          cases hg : env.registryGraph tn.hebNode.name with
          | none => simp only [hg]
          | some g2 =>
            simp only [hg] at h ⊢
            exact ih _ h
        | featureCondition =>
          simp only [hk] at h ⊢
          cases hf : s1.knownFc.find? (fun p => p.1 = tn.hebNode.name) with
          | some cached =>
            simp only [hf] at h ⊢
            by_cases he : (getSuccessorsWithIndex tn.graph tn.hebNode cached.2).isEmpty
            · simp only [he, if_true]
            · simp only [he, if_false] at h ⊢
              exact ih _ h
          | none =>
            simp only [hf] at h ⊢
            by_cases he : (getSuccessorsWithIndex tn.graph tn.hebNode
                (env.fcEval tn.hebNode.name (s1.fcApps.count tn.hebNode.name))).isEmpty
            · simp only [he, if_true]
            · simp only [he, if_false] at h ⊢
              exact ih _ h
        | empty =>
          simp only [hk] at h ⊢
          exact ih _ h

/-- Results other than fuel exhaustion are stable under any larger fuel. -/
theorem runLoop_le (env : EvalEnv) {fuel1 fuel2 : Nat} (hle : fuel1 ≤ fuel2)
    (s : CallState) (h : (runLoop env fuel1 s).1 ≠ Except.error EvalErr.outOfFuel) :
    runLoop env fuel2 s = runLoop env fuel1 s := by
  induction fuel2, hle using Nat.le_induction with
  | base => rfl
  | succ m hm ih =>
    rw [← ih]
    apply runLoop_succ
    rw [ih]
    exact h

/-- An observation lacking both "axe" and "wood" makes the fixture
environment behave exactly like the empty-inventory one. -/
theorem loopEnv_no_items (obs : List String) (haxe : "axe" ∉ obs)
    (hwood : "wood" ∉ obs) : loopEnv obs = loopEnv [] := by
  unfold loopEnv
  congr 1
  funext name k
  simp [haxe, hwood]

/-- Evaluating `GetNewAxe` on the empty inventory with minimal fuel. -/
theorem getNewAxe_empty_inventory :
    (runLoop (loopEnv []) 4 (extendFrontiere (loopEnv []) (initialState getNewAxeGraph)
      getNewAxeGraph (rootsOf getNewAxeGraph))).1 = Except.ok "Punch tree" := by
  rfl

/-- C1: evaluating the `GetNewAxe` behavior of the looping fixture on any
observation in which both "Has axe ?" and "Has wood ?" evaluate to false
returns the action value "Punch tree": the frontier pops lowest-complexity
entries first (ties by insertion order), so the nested `Punch tree` (cost 2)
wins over the cyclic `Get new axe` branch (marked `failure`) and over the
costlier `Summon axe out of thin air` (cost 10). -/
theorem getNewAxe_returns_punch_tree (obs : List String) (haxe : "axe" ∉ obs)
    (hwood : "wood" ∉ obs) (fuel : Nat) (hfuel : 4 ≤ fuel) :
    (evalGraph (loopEnv obs) getNewAxeGraph fuel).1 = Except.ok "Punch tree" := by
  rw [loopEnv_no_items obs haxe hwood]
  unfold evalGraph
  have hne : (runLoop (loopEnv []) 4 (extendFrontiere (loopEnv [])
      (initialState getNewAxeGraph) getNewAxeGraph (rootsOf getNewAxeGraph))).1 ≠
      Except.error EvalErr.outOfFuel := by
    rw [getNewAxe_empty_inventory]
    simp
  rw [runLoop_le (loopEnv []) hfuel _ hne]
  exact getNewAxe_empty_inventory

/-- C1 witness: the empty inventory lacks both items and four frontier pops
suffice. -/
theorem getNewAxe_returns_punch_tree_witness :
    ("axe" ∉ ([] : List String)) ∧ ("wood" ∉ ([] : List String)) ∧ (4 ≤ 4) ∧
    (evalGraph (loopEnv []) getNewAxeGraph 4).1 = Except.ok "Punch tree" :=
  ⟨by simp, by simp, le_refl 4,
    getNewAxe_returns_punch_tree [] (by simp) (by simp) 4 (le_refl 4)⟩

/-- Closing a set under predecessors only ever adds elements. -/
theorem subset_ancestorsStep (edges : List CallEdge) (acc : List CallKey) :
    acc ⊆ ancestorsStep edges acc := by
  unfold ancestorsStep
  suffices h : ∀ (l start : List CallKey), start ⊆ l.foldl (fun acc2 k =>
      acc2 ++ (predsOf edges k).filter (fun p => ¬ acc2.contains p)) start by
    exact h acc acc
  intro l
  induction l with
  | nil => intro start; exact fun _ h => h
  | cons x xs ih =>
    intro start
    intro a ha
    exact ih _ (List.mem_append_left _ ha)

/-- Iterated predecessor closure only ever adds elements. -/
theorem subset_ancestorsAux (edges : List CallEdge) :
    ∀ (n : Nat) (acc : List CallKey), acc ⊆ ancestorsAux edges n acc := by
  intro n
  induction n with
  | zero => intro acc a ha; exact ha
  | succ m ih =>
    intro acc a ha
    exact ih (ancestorsStep edges acc) (subset_ancestorsStep edges acc ha)

/-- Direct predecessors are among the ancestors. -/
theorem mem_ancestorsOf {s : CallState} {k p : CallKey}
    (hp : p ∈ predsOf s.edges k) : p ∈ ancestorsOf s k :=
  subset_ancestorsAux s.edges s.edges.length (predsOf s.edges k) hp

/-- Bound for the running first-minimum index. -/
theorem argminFrom_lt (xs : List Int) :
    ∀ (i best : Nat) (bv : Int), best < i → argminFrom i best bv xs < i + xs.length := by
  induction xs with
  | nil => intro i best bv h; simpa [argminFrom] using h
  | cons x xs ih =>
    intro i best bv h
    unfold argminFrom
    by_cases hx : x < bv
    · simp only [hx, if_true, List.length_cons]
      have := ih (i + 1) i x (Nat.lt_succ_self i)
      omega
    · simp only [hx, if_false, List.length_cons]
      have := ih (i + 1) best bv (Nat.lt_succ_of_lt h)
      omega

/-- The first-minimum index lies within a nonempty list. -/
theorem argminIdx_lt_length (l : List Int) (h : l ≠ []) : argminIdx l < l.length := by
  cases l with
  | nil => exact absurd rfl h
  | cons x xs =>
    unfold argminIdx
    have := argminFrom_lt xs 1 0 x Nat.one_pos
    simp only [List.length_cons]
    omega

/-- A state whose frontier holds only behavior nodes that are name-equal to
the already-registered root is drained entirely by `popLoop`: every entry is
marked `failure` by the ancestor cycle check and the frontier empties. -/
theorem popLoop_all_cycles (b : String) :
    ∀ (fuel : Nat) (s : CallState), s.frontier.length < fuel →
    (∀ k ∈ s.frontier, ∃ tn, traceNodeAt s k = some tn ∧
      tn.hebNode.kind = NodeKind.behavior ∧ tn.hebNode.name = b) →
    (∃ rtn, traceNodeAt s rootKey = some rtn ∧ rtn.hebNode.name = b) →
    (∀ k ∈ s.frontier, ∃ e ∈ s.edges, e.src = rootKey ∧ e.dst = k) →
    ∃ s2, popLoop fuel s = PopResult.empty s2 := by
  intro fuel
  induction fuel with
  | zero => intro s hlen; omega
  | succ n ih =>
    intro s hlen hfront hroot hedges
    match hfr : s.frontier with
    | [] => exact ⟨s, by rw [popLoop, hfr]⟩
    | k0 :: rest =>
      rw [popLoop, hfr]
      dsimp only
      set i := argminIdx (List.map (complexityOfKey s) (k0 :: rest)) with hi
      have hargs' : i < (k0 :: rest).length := by
        rw [hi]
        have := argminIdx_lt_length (List.map (complexityOfKey s) (k0 :: rest)) (by simp)
        simpa using this
      have hkmem : (k0 :: rest).getD i ⟨0, 0⟩ ∈ s.frontier := by
        rw [hfr, List.getD_eq_getElem _ _ hargs']
        exact List.getElem_mem hargs'
      set k := (k0 :: rest).getD i ⟨0, 0⟩ with hk
      obtain ⟨tn, htn, hkind, hname⟩ := hfront k hkmem
      set s1 : CallState := { s with frontier := (k0 :: rest).eraseIdx i } with hs1
      have htn1 : traceNodeAt s1 k = some tn := htn
      rw [htn1]
      obtain ⟨e, hemem, hesrc, hedst⟩ := hedges k hkmem
      have hpredmem : rootKey ∈ predsOf s1.edges k := by
        unfold predsOf
        refine List.mem_map.mpr ⟨e, ?_, hesrc⟩
        exact List.mem_filter.mpr ⟨hemem, by simp [hedst]⟩
      have hpredne : predsOf s1.edges k ≠ [] := by
        intro hnil; rw [hnil] at hpredmem; exact absurd hpredmem (List.not_mem_nil _)
      obtain ⟨p, ps, hps⟩ : ∃ p ps, predsOf s1.edges k = p :: ps := by
        cases hpp : predsOf s1.edges k with
        | nil => exact absurd hpp hpredne
        | cons p ps => exact ⟨p, ps, rfl⟩
      rw [hps]
      simp only [List.head?]
      obtain ⟨rtn, hrtn, hrtnname⟩ := hroot
      have hrtn1 : traceNodeAt s1 rootKey = some rtn := hrtn
      have hanc : rootKey ∈ ancestorsOf s1 k := mem_ancestorsOf hpredmem
      have hcond : tn.hebNode.kind = NodeKind.behavior ∧
          ((ancestorsOf s1 k).any (fun a =>
            match traceNodeAt s1 a with
            | some ta => decide (ta.hebNode.name = tn.hebNode.name)
            | none => decide False)) = true := by
        refine ⟨hkind, List.any_eq_true.mpr ⟨rootKey, hanc, ?_⟩⟩
        rw [hrtn1]
        simp [hrtnname, hname]
      rw [if_pos hcond]
      set s2 : CallState := updateEdgeStatus s1 p k CallStatus.failure with hs2
      have hlen2 : s2.frontier.length < n := by
        have : s2.frontier = (k0 :: rest).eraseIdx i := rfl
        rw [this, List.length_eraseIdx]
        simp only [hargs', if_true]
        rw [hfr] at hlen
        simp only [List.length_cons] at hlen ⊢
        omega
      have hsub : ∀ k2 ∈ s2.frontier, k2 ∈ s.frontier := by
        intro k2 hk2
        have : k2 ∈ (k0 :: rest).eraseIdx i := hk2
        rw [hfr]
        exact (List.eraseIdx_sublist _ i).mem this
      refine ih s2 hlen2 ?_ ⟨rtn, hrtn, hrtnname⟩ ?_
      · intro k2 hk2
        obtain ⟨tn2, h2, h3, h4⟩ := hfront k2 (hsub k2 hk2)
        exact ⟨tn2, h2, h3, h4⟩
      · intro k2 hk2
        obtain ⟨e2, h2mem, h2src, h2dst⟩ := hedges k2 (hsub k2 hk2)
        refine ⟨if e2.src = p ∧ e2.dst = k then { e2 with status := CallStatus.failure }
          else e2, List.mem_map_of_mem _ h2mem, ?_, ?_⟩ <;>
          split <;> simp [h2src, h2dst]

/-- Registering a trace node never changes the frontier, the current node,
the counters or the caches. -/
theorem addTraceNode_fields (s : CallState) (t : TraceNode) :
    (addTraceNode s t).frontier = s.frontier ∧ (addTraceNode s t).current = s.current ∧
    (addTraceNode s t).edges = s.edges ∧ (addTraceNode s t).nBranches = s.nBranches ∧
    (addTraceNode s t).knownFc = s.knownFc ∧ (addTraceNode s t).fcApps = s.fcApps := by
  unfold addTraceNode
  split <;> exact ⟨rfl, rfl, rfl, rfl, rfl, rfl⟩

/-- Registering a call edge never changes the nodes, the frontier, the
current node, the counters or the caches. -/
theorem addCallEdge_fields (s : CallState) (d : CallEdge) :
    (addCallEdge s d).frontier = s.frontier ∧ (addCallEdge s d).current = s.current ∧
    (addCallEdge s d).nodes = s.nodes ∧ (addCallEdge s d).nBranches = s.nBranches ∧
    (addCallEdge s d).knownFc = s.knownFc ∧ (addCallEdge s d).fcApps = s.fcApps := by
  unfold addCallEdge
  split <;> exact ⟨rfl, rfl, rfl, rfl, rfl, rfl⟩

/-- A registered key stays registered after `addTraceNode`. -/
theorem addTraceNode_keyMem {s : CallState} {k : CallKey} (t : TraceNode)
    (h : ∃ tn ∈ s.nodes, tn.key = k) :
    ∃ tn ∈ (addTraceNode s t).nodes, tn.key = k := by
  obtain ⟨tn, hmem, hkey⟩ := h
  unfold addTraceNode
  split
  · have himg : (fun t1 => if t1.key = t.key then t else t1) tn ∈
        s.nodes.map (fun t1 => if t1.key = t.key then t else t1) :=
      List.mem_map_of_mem _ hmem
    refine ⟨_, himg, ?_⟩
    show (if tn.key = t.key then t else tn).key = k
    by_cases hc : tn.key = t.key
    · rw [if_pos hc, ← hc, hkey]
    · rw [if_neg hc]
      exact hkey
  · exact ⟨tn, List.mem_append_left _ hmem, hkey⟩

/-- The registered node's key is present after `addTraceNode`. -/
theorem addTraceNode_keyMem_self (s : CallState) (t : TraceNode) :
    ∃ tn ∈ (addTraceNode s t).nodes, tn.key = t.key := by
  unfold addTraceNode
  split
  · rename_i hany
    obtain ⟨tn, hmem, hkeyb⟩ := List.any_eq_true.mp hany
    have hkey : tn.key = t.key := by
      simp only [decide_eq_true_eq] at hkeyb
      exact hkeyb
    have himg : (fun t1 => if t1.key = t.key then t else t1) tn ∈
        s.nodes.map (fun t1 => if t1.key = t.key then t else t1) :=
      List.mem_map_of_mem _ hmem
    refine ⟨_, himg, ?_⟩
    show (if tn.key = t.key then t else tn).key = t.key
    rw [if_pos hkey]
  · exact ⟨t, List.mem_append_right _ (List.mem_singleton.mpr rfl), rfl⟩

/-- An edge with given endpoints survives `addCallEdge` (possibly with a new
status). -/
theorem addCallEdge_mem_preserve {s : CallState} {a b2 : CallKey} (d : CallEdge)
    (h : ∃ e ∈ s.edges, e.src = a ∧ e.dst = b2) :
    ∃ e ∈ (addCallEdge s d).edges, e.src = a ∧ e.dst = b2 := by
  obtain ⟨e, hmem, hsrc, hdst⟩ := h
  unfold addCallEdge
  split
  · refine ⟨if e.src = d.src ∧ e.dst = d.dst then { e with status := d.status } else e,
      List.mem_map_of_mem _ hmem, ?_⟩
    split <;> exact ⟨hsrc, hdst⟩
  · exact ⟨e, List.mem_append_left _ hmem, hsrc, hdst⟩

/-- After `addCallEdge s d` some edge with `d`'s endpoints is present. -/
theorem addCallEdge_mem_self (s : CallState) (d : CallEdge) :
    ∃ e ∈ (addCallEdge s d).edges, e.src = d.src ∧ e.dst = d.dst := by
  unfold addCallEdge
  split
  · rename_i hany
    obtain ⟨e, hmem, hcond⟩ := List.any_eq_true.mp hany
    have hc := of_decide_eq_true hcond
    refine ⟨{ e with status := d.status }, ?_, hc.1, hc.2⟩
    have : (if e.src = d.src ∧ e.dst = d.dst then { e with status := d.status } else e)
        = { e with status := d.status } := if_pos hc
    rw [← this]
    exact List.mem_map_of_mem _ hmem
  · exact ⟨d, List.mem_append_right _ (List.mem_singleton.mpr rfl), rfl, rfl⟩

/-- Trace-node payload sanity for the self-loop argument: every registered
trace node is named after the subject, and is the root or a behavior. -/
def NodesOk (b : String) (s : CallState) : Prop :=
  (∀ tn ∈ s.nodes, tn.hebNode.name = b ∧ (tn.key = rootKey ∨ tn.hebNode.kind = NodeKind.behavior)) ∧
  (∃ tn ∈ s.nodes, tn.key = rootKey)

/-- Frontier extension with behavior nodes named after the subject preserves
the self-loop invariant: every produced frontier key is registered, fed by an
edge from the root and distinct from the root. -/
theorem extendStep_fold_cycles (env : EvalEnv) (g : HGraph) (b : String)
    (hreg : ∀ name node, env.registryNode name = some node →
      node.kind = NodeKind.behavior ∧ node.name = name) :
    ∀ (ns : List HNode), (∀ n ∈ ns, n.kind = NodeKind.behavior ∧ n.name = b) →
    ∀ (s : CallState) (ks : List CallKey) (i : Nat),
      NodesOk b s → s.current = rootKey → s.frontier = [] →
      (∀ k ∈ ks, (∃ tn ∈ s.nodes, tn.key = k) ∧
        (∃ e ∈ s.edges, e.src = rootKey ∧ e.dst = k) ∧ ¬ k = rootKey) →
      let folded := ns.foldl (extendStep env g rootKey) (s, ks, i)
      NodesOk b folded.1 ∧ folded.1.current = rootKey ∧ folded.1.frontier = [] ∧
      (∀ k ∈ folded.2.1, (∃ tn ∈ folded.1.nodes, tn.key = k) ∧
        (∃ e ∈ folded.1.edges, e.src = rootKey ∧ e.dst = k) ∧ ¬ k = rootKey) := by
  intro ns
  induction ns with
  | nil =>
    intro _ s ks i hok hcur hfr hks
    exact ⟨hok, hcur, hfr, hks⟩
  | cons n rest ih =>
    intro hall s ks i hok hcur hfr hks
    have hn := hall n (List.mem_cons_self n rest)
    have hrest : ∀ m ∈ rest, m.kind = NodeKind.behavior ∧ m.name = b :=
      fun m hm => hall m (List.mem_cons_of_mem n hm)
    simp only [List.foldl_cons]
    set sA := if 0 < i then { s with nBranches := s.nBranches + 1 } else s with hsA
    set branchId := if 0 < i then s.nBranches + 1 else rootKey.branch with hbr
    set node2 := (env.registryNode n.name).getD n with hnode2
    set k : CallKey := ⟨branchId, rootKey.rank + 1⟩ with hkdef
    set sB := addTraceNode sA ⟨k, node2, g⟩ with hsB
    set sC := addCallEdge sB ⟨rootKey, k, CallStatus.unexplored⟩ with hsC
    have hstep : extendStep env g rootKey (s, ks, i) n = (sC, ks ++ [k], i + 1) := rfl
    rw [hstep]
    have hnode2ok : node2.kind = NodeKind.behavior ∧ node2.name = b := by
      rw [hnode2]
      cases hr : env.registryNode n.name with
      | none => simpa using hn
      | some m =>
        have := hreg n.name m hr
        simp only [Option.getD_some]
        exact ⟨this.1, this.2.trans hn.2⟩
    have hokA : NodesOk b sA := by
      rw [hsA]; split <;> exact hok
    have hcurA : sA.current = rootKey := by
      rw [hsA]; split <;> exact hcur
    have hfrA : sA.frontier = [] := by
      rw [hsA]; split <;> exact hfr
    have hksA : ∀ k2 ∈ ks, (∃ tn ∈ sA.nodes, tn.key = k2) ∧
        (∃ e ∈ sA.edges, e.src = rootKey ∧ e.dst = k2) ∧ ¬ k2 = rootKey := by
      intro k2 hk2
      have := hks k2 hk2
      rw [hsA]
      split <;> exact this
    have hkne : ¬ k = rootKey := by
      rw [hkdef]
      intro h
      have := congrArg CallKey.rank h
      simp [rootKey] at this
    have hokB : NodesOk b sB := by
      constructor
      · intro tn htn
        rw [hsB] at htn
        unfold addTraceNode at htn
        revert htn
        split
        · intro htn
          obtain ⟨tn0, hmem0, heq⟩ := List.mem_map.mp htn
          revert heq
          split
          · intro heq
            rw [← heq]
            exact ⟨hnode2ok.2, Or.inr hnode2ok.1⟩
          · intro heq
            rw [← heq]
            exact hokA.1 tn0 hmem0
        · intro htn
          rcases List.mem_append.mp htn with h0 | h0
          · exact hokA.1 tn h0
          · rw [List.mem_singleton.mp h0]
            exact ⟨hnode2ok.2, Or.inr hnode2ok.1⟩
      · exact addTraceNode_keyMem _ hokA.2
    have hokC : NodesOk b sC := by
      refine ⟨?_, ?_⟩
      · rw [hsC, (addCallEdge_fields sB _).2.2.1]
        exact hokB.1
      · rw [hsC, (addCallEdge_fields sB _).2.2.1]
        exact hokB.2
    have hcurC : sC.current = rootKey := by
      rw [hsC, (addCallEdge_fields sB _).2.1, hsB, (addTraceNode_fields sA _).2.1, hcurA]
    have hfrC : sC.frontier = [] := by
      rw [hsC, (addCallEdge_fields sB _).1, hsB, (addTraceNode_fields sA _).1, hfrA]
    have hksC : ∀ k2 ∈ ks ++ [k], (∃ tn ∈ sC.nodes, tn.key = k2) ∧
        (∃ e ∈ sC.edges, e.src = rootKey ∧ e.dst = k2) ∧ ¬ k2 = rootKey := by
      intro k2 hk2
      rcases List.mem_append.mp hk2 with h0 | h0
      · obtain ⟨hmem, hedge, hne⟩ := hksA k2 h0
        refine ⟨?_, ?_, hne⟩
        · rw [hsC, (addCallEdge_fields sB _).2.2.1, hsB]
          exact addTraceNode_keyMem _ hmem
        · rw [hsC]
          apply addCallEdge_mem_preserve
          rw [hsB, (addTraceNode_fields sA _).2.2.1]
          exact hedge
      · rw [List.mem_singleton.mp h0]
        refine ⟨?_, ?_, hkne⟩
        · rw [hsC, (addCallEdge_fields sB _).2.2.1, hsB]
          exact addTraceNode_keyMem_self sA ⟨k, node2, g⟩
        · rw [hsC]
          exact addCallEdge_mem_self sB ⟨rootKey, k, CallStatus.unexplored⟩
    exact ih hrest sC (ks ++ [k]) (i + 1) hokC hcurC hfrC hksC

/-- C2: a Behavior whose graph's every node is a behavior node referencing
the subject behavior itself (the only paths route back to itself, with no
alternative branch) fails with the fatal frontier-exhaustion error
`noValidFrontiere` for every fuel bound above one loop iteration — each
frontier entry is discarded by the ancestor cycle check without recursing,
the frontier empties, and the call raises — rather than recursing forever. -/
theorem self_referencing_behavior_fails (env : EvalEnv) (g : HGraph)
    (hall : ∀ n ∈ g.nodes, n.kind = NodeKind.behavior ∧ n.name = g.behavior.name)
    (hreg : ∀ name node, env.registryNode name = some node →
      node.kind = NodeKind.behavior ∧ node.name = name)
    (fuel : Nat) (hfuel : 1 ≤ fuel) :
    (evalGraph env g fuel).1 = Except.error EvalErr.noValidFrontiere := by
  obtain ⟨m, rfl⟩ : ∃ m, fuel = m + 1 := ⟨fuel - 1, by omega⟩
  unfold evalGraph
  set b := g.behavior.name with hb
  have hroots : ∀ n ∈ rootsOf g, n.kind = NodeKind.behavior ∧ n.name = b := by
    intro n hn
    exact hall n (List.mem_filter.mp hn).1
  have h0 : NodesOk b (initialState g) := by
    constructor
    · intro tn htn
      rw [List.mem_singleton.mp htn]
      exact ⟨rfl, Or.inl rfl⟩
    · exact ⟨⟨rootKey, g.behavior, g⟩, List.mem_singleton.mpr rfl, rfl⟩
  have hfold := extendStep_fold_cycles env g b hreg (rootsOf g) hroots
    (initialState g) [] 0 h0 rfl rfl (by intro k hk; exact absurd hk (List.not_mem_nil k))
  set folded := (rootsOf g).foldl (extendStep env g rootKey) (initialState g, [], 0)
    with hfolded
  obtain ⟨hok, hcur, hfr, hks⟩ := hfold
  have hext : extendFrontiere env (initialState g) g (rootsOf g) =
      { folded.1 with frontier := folded.1.frontier ++ folded.2.1 } := rfl
  set s1 : CallState := { folded.1 with frontier := folded.1.frontier ++ folded.2.1 }
    with hs1
  rw [hext]
  have hfr1 : s1.frontier = folded.2.1 := by
    rw [hs1]
    simp [hfr]
  have hfront : ∀ k ∈ s1.frontier, ∃ tn, traceNodeAt s1 k = some tn ∧
      tn.hebNode.kind = NodeKind.behavior ∧ tn.hebNode.name = b := by
    intro k hk
    rw [hfr1] at hk
    obtain ⟨hmem, _hedge, hne⟩ := hks k hk
    have hsome : (s1.nodes.find? (fun tn => tn.key = k)).isSome := by
      rw [List.find?_isSome]
      obtain ⟨tn, htn, hkey⟩ := hmem
      exact ⟨tn, htn, by simp [hkey]⟩
    obtain ⟨tn, htn⟩ := Option.isSome_iff_exists.mp hsome
    have hmem2 := List.mem_of_find?_eq_some htn
    have hkey : tn.key = k := by
      have := List.find?_some htn
      simp only [decide_eq_true_eq] at this
      exact this
    have hprops := hok.1 tn hmem2
    refine ⟨tn, htn, ?_, hprops.1⟩
    rcases hprops.2 with h1 | h1
    · exact absurd (hkey.symm.trans h1) hne
    · exact h1
  have hroot : ∃ rtn, traceNodeAt s1 rootKey = some rtn ∧ rtn.hebNode.name = b := by
    have hsome : (s1.nodes.find? (fun tn => tn.key = rootKey)).isSome := by
      rw [List.find?_isSome]
      obtain ⟨tn, htn, hkey⟩ := hok.2
      exact ⟨tn, htn, by simp [hkey]⟩
    obtain ⟨rtn, hrtn⟩ := Option.isSome_iff_exists.mp hsome
    exact ⟨rtn, hrtn, (hok.1 rtn (List.mem_of_find?_eq_some hrtn)).1⟩
  have hedges : ∀ k ∈ s1.frontier, ∃ e ∈ s1.edges, e.src = rootKey ∧ e.dst = k := by
    intro k hk
    rw [hfr1] at hk
    exact (hks k hk).2.1
  obtain ⟨s2, hs2⟩ := popLoop_all_cycles b (s1.frontier.length + 1) s1
    (Nat.lt_succ_self _) hfront hroot hedges
  rw [runLoop]
  unfold popFromFrontiere
  rw [hs2]

/-- C2 witness: the concrete self-referencing behavior `selfLoopGraph` fails
with the frontier-exhaustion error. -/
theorem self_referencing_behavior_fails_witness :
    (evalGraph selfLoopEnv selfLoopGraph 3).1 = Except.error EvalErr.noValidFrontiere := by
  apply self_referencing_behavior_fails
  · intro n hn
    have : n = selfLoopNode := by
      simpa [selfLoopGraph] using hn
    rw [this]
    exact ⟨rfl, rfl⟩
  · intro name node h
    by_cases hname : name = "Auto"
    · rw [hname] at h ⊢
      have h2 : some selfLoopNode = some node := by
        rw [show selfLoopEnv.registryNode "Auto" = some selfLoopNode from rfl] at h
        exact h
      injection h2 with h3
      rw [← h3]
      exact ⟨rfl, rfl⟩
    · simp [selfLoopEnv, hname] at h
  · omega

/-- C6: when a popped FeatureCondition resolves to a branch index (cached or
freshly computed) that matches no outgoing edge of that node, the whole
evaluation raises the fatal invalid-index error immediately — it does not
fall back to the remaining frontier alternatives. -/
theorem invalid_branch_index_is_fatal (env : EvalEnv) (fuel : Nat) (s : CallState)
    (k : CallKey) (s1 : CallState) (tn : TraceNode)
    (hpop : popFromFrontiere s = PopResult.ok k s1)
    (htn : traceNodeAt s1 k = some tn)
    (hkind : tn.hebNode.kind = NodeKind.featureCondition)
    (idx : Nat)
    (hidx : idx = match s1.knownFc.find? (fun p => p.1 = tn.hebNode.name) with
      | some cached => cached.2
      | none => env.fcEval tn.hebNode.name (s1.fcApps.count tn.hebNode.name))
    (hsucc : getSuccessorsWithIndex tn.graph tn.hebNode idx = []) :
    (runLoop env (fuel + 1) s).1 = Except.error EvalErr.invalidIndex := by
  simp only [runLoop, hpop, htn, hkind]
  cases hfind : s1.knownFc.find? (fun p => p.1 = tn.hebNode.name) with
  | some cached =>
    rw [hfind] at hidx
    dsimp only at hidx
    simp only [hfind]
    rw [← hidx, hsucc]
    simp
  | none =>
    rw [hfind] at hidx
    dsimp only at hidx
    simp only [hfind]
    rw [← hidx, hsucc]
    simp

/-- C6 witness: on `badIdxGraph` the popped condition returns index 7 with no
matching edge, and the evaluation fails fatally even though the viable
`altAction` is still on the frontier. -/
theorem invalid_branch_index_is_fatal_witness :
    (runLoop badIdxEnv 2 badIdxState).1 = Except.error EvalErr.invalidIndex :=
  invalid_branch_index_is_fatal badIdxEnv 1 badIdxState ⟨0, 1⟩ badIdxPopState
    ⟨⟨0, 1⟩, badFC, badIdxGraph⟩ rfl rfl rfl 7 rfl rfl

/-- C8: the claim's closed kind set is contradicted by the source:
`NODE_TYPES` in `hebg/node.py` is `("action", "feature_condition", "option",
"empty")`, so constructing a node with the "behavior" tag — as
`Behavior.__init__` always does and as `tests/unit/test_node.py` expects to
succeed — raises `ValueError`, while the tag "option", outside the documented
closed set, is accepted. -/
theorem node_type_behavior_rejected :
    mkBehaviorNode "b" = Except.error "node_type not in authorised node_types" ∧
    mkNode "b" "option" = Except.ok ("b", "option") ∧
    mkNode "b" "action" = Except.ok ("b", "action") ∧
    mkNode "b" "feature_condition" = Except.ok ("b", "feature_condition") ∧
    mkNode "b" "empty" = Except.ok ("b", "empty") := by
  refine ⟨?_, rfl, rfl, rfl, rfl⟩
  rfl

/-- Popping never changes the feature-condition cache or the application
record. -/
theorem popLoop_fc : ∀ (fuel : Nat) (s : CallState),
    (popLoop fuel s).state.knownFc = s.knownFc ∧
    (popLoop fuel s).state.fcApps = s.fcApps := by
  intro fuel
  induction fuel with
  | zero => intro s; exact ⟨rfl, rfl⟩
  | succ n ih =>
    intro s
    rw [popLoop]
    split
    · exact ⟨rfl, rfl⟩
    · dsimp only
      split
      · exact ⟨rfl, rfl⟩
      · split
        · exact ⟨rfl, rfl⟩
        · split
          · exact ⟨(ih _).1.trans rfl, (ih _).2.trans rfl⟩
          · exact ⟨rfl, rfl⟩

/-- One extension step never changes the feature-condition cache or the
application record. -/
theorem extendStep_fc (env : EvalEnv) (g : HGraph) (P : CallKey)
    (acc : CallState × List CallKey × Nat) (n : HNode) :
    (extendStep env g P acc n).1.knownFc = acc.1.knownFc ∧
    (extendStep env g P acc n).1.fcApps = acc.1.fcApps := by
  unfold extendStep
  dsimp only
  constructor
  · rw [(addCallEdge_fields _ _).2.2.2.2.1, (addTraceNode_fields _ _).2.2.2.2.1]
    split <;> rfl
  · rw [(addCallEdge_fields _ _).2.2.2.2.2, (addTraceNode_fields _ _).2.2.2.2.2]
    split <;> rfl

/-- Frontier extension never changes the feature-condition cache or the
application record. -/
theorem extendFrontiere_fc (env : EvalEnv) (s : CallState) (g : HGraph)
    (ns : List HNode) :
    (extendFrontiere env s g ns).knownFc = s.knownFc ∧
    (extendFrontiere env s g ns).fcApps = s.fcApps := by
  unfold extendFrontiere
  dsimp only
  suffices h : ∀ (l : List HNode) (acc : CallState × List CallKey × Nat),
      (l.foldl (extendStep env g s.current) acc).1.knownFc = acc.1.knownFc ∧
      (l.foldl (extendStep env g s.current) acc).1.fcApps = acc.1.fcApps by
    exact ⟨(h ns (s, [], 0)).1, (h ns (s, [], 0)).2⟩
  intro l
  induction l with
  | nil => intro acc; exact ⟨rfl, rfl⟩
  | cons x xs ih =>
    intro acc
    simp only [List.foldl_cons]
    refine ⟨(ih _).1.trans ?_, (ih _).2.trans ?_⟩
    · exact (extendStep_fc env g s.current acc x).1
    · exact (extendStep_fc env g s.current acc x).2

/-- A state with the same cache and application record inherits the cache
invariant. -/
theorem FcInv_of_eq {env : EvalEnv} {s s2 : CallState} (h : FcInv env s)
    (h1 : s2.knownFc = s.knownFc) (h2 : s2.fcApps = s.fcApps) : FcInv env s2 := by
  refine ⟨?_, ?_, ?_⟩
  · rw [h1, h2]; exact h.1
  · rw [h2]; exact h.2.1
  · intro p hp
    rw [h1] at hp
    exact h.2.2 p hp

/-- The feature-condition cache invariant is preserved by the evaluation
loop. -/
theorem runLoop_fcInv (env : EvalEnv) : ∀ (fuel : Nat) (s : CallState),
    FcInv env s → FcInv env (runLoop env fuel s).2 := by
  intro fuel
  induction fuel with
  | zero => intro s h; exact h
  | succ n ih =>
    intro s h
    have hpopfc := popLoop_fc (s.frontier.length + 1) s
    rw [runLoop]
    cases hp : popFromFrontiere s with
    | empty s1 =>
      unfold popFromFrontiere at hp
      rw [hp] at hpopfc
      simp only [PopResult.state] at hpopfc
      exact FcInv_of_eq h hpopfc.1 hpopfc.2
    | fail s1 =>
      unfold popFromFrontiere at hp
      rw [hp] at hpopfc
      simp only [PopResult.state] at hpopfc
      exact FcInv_of_eq h hpopfc.1 hpopfc.2
    | ok k s1 =>
      unfold popFromFrontiere at hp
      rw [hp] at hpopfc
      simp only [PopResult.state] at hpopfc
      have h1 : FcInv env s1 := FcInv_of_eq h hpopfc.1 hpopfc.2
      dsimp only
      cases htn : traceNodeAt s1 k with
      | none => exact h1
      | some tn =>
        simp only [htn]
        cases hk : tn.hebNode.kind with
        | action => exact h1
        | behavior =>
          simp only [hk]
          cases hg : env.registryGraph tn.hebNode.name with
          | none => exact h1
          | some g2 =>
            simp only [hg]
            apply ih
            have hext := extendFrontiere_fc env s1 g2 (rootsOf g2)
            exact FcInv_of_eq h1 hext.1 hext.2
        | featureCondition =>
          simp only [hk]
          cases hfind : s1.knownFc.find? (fun p => p.1 = tn.hebNode.name) with
          | some cached =>
            simp only [hfind]
            by_cases he : (getSuccessorsWithIndex tn.graph tn.hebNode cached.2).isEmpty
            · simp only [he, if_true]
              exact h1
            · simp only [he, if_false]
              apply ih
              have hext := extendFrontiere_fc env s1 tn.graph
                (getSuccessorsWithIndex tn.graph tn.hebNode cached.2)
              exact FcInv_of_eq h1 hext.1 hext.2
          | none =>
            simp only [hfind]
            have hnotmem : tn.hebNode.name ∉ s1.fcApps := by
              rw [← h1.1]
              intro hmem
              obtain ⟨p, hpmem, hpname⟩ := List.mem_map.mp hmem
              have := List.find?_eq_none.mp hfind p hpmem
              simp [hpname] at this
            have hcount : s1.fcApps.count tn.hebNode.name = 0 :=
              List.count_eq_zero.mpr hnotmem
            have h2 : FcInv env { s1 with
                knownFc := s1.knownFc ++ [(tn.hebNode.name,
                  env.fcEval tn.hebNode.name (s1.fcApps.count tn.hebNode.name))],
                fcApps := s1.fcApps ++ [tn.hebNode.name] } := by
              refine ⟨?_, ?_, ?_⟩
              · simp only [List.map_append, List.map_cons, List.map_nil]
                rw [h1.1]
              · exact List.Nodup.append h1.2.1 (List.nodup_singleton _)
                  (by
                    intro a ha hb
                    rw [List.mem_singleton.mp hb] at ha
                    exact hnotmem (h1.1 ▸ ha))
              · intro p hpmem
                rcases List.mem_append.mp hpmem with h0 | h0
                · exact h1.2.2 p h0
                · rw [List.mem_singleton.mp h0]
                  rw [hcount]
            by_cases he : (getSuccessorsWithIndex tn.graph tn.hebNode
                (env.fcEval tn.hebNode.name (s1.fcApps.count tn.hebNode.name))).isEmpty
            · simp only [he, if_true]
              exact h2
            · simp only [he, if_false]
              apply ih
              have hext := extendFrontiere_fc env { s1 with
                  knownFc := s1.knownFc ++ [(tn.hebNode.name,
                    env.fcEval tn.hebNode.name (s1.fcApps.count tn.hebNode.name))],
                  fcApps := s1.fcApps ++ [tn.hebNode.name] } tn.graph
                (getSuccessorsWithIndex tn.graph tn.hebNode
                  (env.fcEval tn.hebNode.name (s1.fcApps.count tn.hebNode.name)))
              exact FcInv_of_eq h2 hext.1 hext.2
        | empty =>
          simp only [hk]
          apply ih
          have hext := extendFrontiere_fc env s1 tn.graph
            (successorsOf tn.graph tn.hebNode)
          exact FcInv_of_eq h1 hext.1 hext.2

/-- C9: within one evaluation call each feature condition is applied to the
observation at most once — the first computed branch index is cached in the
known-feature-condition map and every later pop of an equal (same-named)
condition reuses it — so every cached index is the first application's value
even for stateful or nondeterministic condition functions. -/
theorem fc_applied_at_most_once (env : EvalEnv) (g : HGraph) (fuel : Nat)
    (name : String) :
    (evalGraph env g fuel).2.fcApps.count name ≤ 1 ∧
    ∀ v, (name, v) ∈ (evalGraph env g fuel).2.knownFc → v = env.fcEval name 0 := by
  have h0 : FcInv env (extendFrontiere env (initialState g) g (rootsOf g)) := by
    have hext := extendFrontiere_fc env (initialState g) g (rootsOf g)
    refine ⟨by rw [hext.1, hext.2]; rfl, by rw [hext.2]; exact List.nodup_nil, ?_⟩
    intro p hpmem
    rw [hext.1] at hpmem
    exact absurd hpmem (List.not_mem_nil p)
  have hinv := runLoop_fcInv env fuel _ h0
  constructor
  · exact List.nodup_iff_count_le_one.mp hinv.2.1 name
  · intro v hv
    exact hinv.2.2 (name, v) hv

/-- An element of a duplicate-free list is gone after erasing its index. -/
theorem nodup_getElem_not_mem_eraseIdx {α : Type} {l : List α} (h : l.Nodup)
    {i : Nat} (hi : i < l.length) : l[i] ∉ l.eraseIdx i := by
  intro hmem
  obtain ⟨j, hj, hne, heq⟩ := List.mem_eraseIdx_iff_getElem.mp hmem
  exact hne ((h.getElem_inj_iff).mp heq)

/-- Updating an edge status never changes any in-degree. -/
theorem inDeg_updateEdgeStatus (s : CallState) (p k2 : CallKey) (st : CallStatus)
    (k : CallKey) : inDeg (updateEdgeStatus s p k2 st).edges k = inDeg s.edges k := by
  unfold updateEdgeStatus inDeg
  dsimp only
  rw [List.countP_map]
  apply List.countP_congr
  intro e _
  by_cases hc : e.src = p ∧ e.dst = k2 <;> simp [Function.comp, hc]

/-- Updating an edge status preserves the call-graph tree invariant. -/
theorem TreeWF_updateEdgeStatus (s : CallState) (p k2 : CallKey) (st : CallStatus)
    (h : TreeWF s) : TreeWF (updateEdgeStatus s p k2 st) := by
  obtain ⟨h1, h2, h3, h4, h5, h6, h7, h8⟩ := h
  refine ⟨h1, ?_, ?_, ?_, h5, h6, h7, h8⟩
  · intro tn htn
    rw [inDeg_updateEdgeStatus]
    exact h2 tn htn
  · rw [inDeg_updateEdgeStatus]
    exact h3
  · intro e hmem
    obtain ⟨e0, hmem0, heq⟩ := List.mem_map.mp hmem
    have hsrc : e.src = e0.src := by
      rw [← heq]; split <;> rfl
    have hdst : e.dst = e0.dst := by
      rw [← heq]; split <;> rfl
    rw [hsrc, hdst]
    exact h4 e0 hmem0

/-- Erasing a frontier entry preserves the call-graph tree invariant. -/
theorem TreeWF_eraseFrontier (s : CallState) (i : Nat) (h : TreeWF s) :
    TreeWF { s with frontier := s.frontier.eraseIdx i } := by
  obtain ⟨h1, h2, h3, h4, h5, h6, h7, h8⟩ := h
  refine ⟨h1, h2, h3, h4, h5, h6, ?_, ?_⟩
  · intro k hk
    exact h7 k ((List.eraseIdx_sublist _ i).mem hk)
  · exact (List.eraseIdx_sublist _ i).nodup h8

/-- Popping from a well-formed frontier yields either the exhausted frontier
or a well-formed state whose current node is a freshly popped registered
leaf. -/
theorem popLoop_wf : ∀ (fuel : Nat) (s : CallState), TreeWF s →
    s.frontier.length < fuel →
    (∃ s2, popLoop fuel s = PopResult.empty s2 ∧ TreeWF s2 ∧ s2.nodes = s.nodes) ∨
    (∃ k s2, popLoop fuel s = PopResult.ok k s2 ∧ TreeWF s2 ∧ s2.current = k ∧
      s2.nodes = s.nodes ∧ keyMem s2 k ∧ ¬ keyMem s2 ⟨k.branch, k.rank + 1⟩ ∧
      1 ≤ k.rank ∧ k ∉ s2.frontier) := by
  intro fuel
  induction fuel with
  | zero => intro s _ h; omega
  | succ n ih =>
    intro s hwf hlen
    match hfr : s.frontier with
    | [] =>
      left
      exact ⟨s, by rw [popLoop, hfr], hwf, rfl⟩
    | k0 :: rest =>
      rw [popLoop, hfr]
      dsimp only
      set i := argminIdx (List.map (complexityOfKey s) (k0 :: rest)) with hi
      have hargs' : i < (k0 :: rest).length := by
        rw [hi]
        have := argminIdx_lt_length (List.map (complexityOfKey s) (k0 :: rest)) (by simp)
        simpa using this
      have hgetd : (k0 :: rest).getD i ⟨0, 0⟩ = (k0 :: rest)[i] :=
        List.getD_eq_getElem _ _ hargs'
      have hkmem_fr : (k0 :: rest).getD i ⟨0, 0⟩ ∈ s.frontier := by
        rw [hfr, hgetd]
        exact List.getElem_mem hargs'
      set k := (k0 :: rest).getD i ⟨0, 0⟩ with hk
      obtain ⟨hkeymem, htip, hrank⟩ := hwf.2.2.2.2.2.2.1 k hkmem_fr
      set s1 : CallState := { s with frontier := (k0 :: rest).eraseIdx i } with hs1
      have hwf1 : TreeWF s1 := by
        have := TreeWF_eraseFrontier s i hwf
        rw [hfr] at this
        exact this
      have hnotfr1 : k ∉ s1.frontier := by
        have hnd : (k0 :: rest).Nodup := by
          have := hwf.2.2.2.2.2.2.2
          rw [hfr] at this
          exact this
        rw [hgetd]
        exact nodup_getElem_not_mem_eraseIdx hnd hargs'
      have hkeymem1 : keyMem s1 k := hkeymem
      have htip1 : ¬ keyMem s1 ⟨k.branch, k.rank + 1⟩ := htip
      have hsome : (s1.nodes.find? (fun tn => tn.key = k)).isSome := by
        rw [List.find?_isSome]
        obtain ⟨tn, htnmem, hkey⟩ := hkeymem1
        exact ⟨tn, htnmem, by simp [hkey]⟩
      obtain ⟨tn, htn⟩ := Option.isSome_iff_exists.mp hsome
      have htn' : traceNodeAt s1 k = some tn := htn
      rw [htn']
      have hkey : tn.key = k := by
        have := List.find?_some htn
        simp only [decide_eq_true_eq] at this
        exact this
      have hknotroot : ¬ k = rootKey := by
        intro hcon
        rw [hcon] at hrank
        simp [rootKey] at hrank
      have hindeg : inDeg s1.edges k = 1 := by
        obtain ⟨tnk, htnkmem, htnkkey⟩ := hkeymem1
        rcases hwf1.2.1 tnk htnkmem with hroot | hdeg
        · have hcon : k = rootKey := by rw [← htnkkey]; exact hroot
          exact absurd hcon hknotroot
        · rw [← htnkkey]
          exact hdeg
      have hpredne : ∃ e ∈ s1.edges, e.dst = k := by
        have : 0 < inDeg s1.edges k := by omega
        obtain ⟨e, hemem, hedst⟩ := List.countP_pos_iff.mp this
        exact ⟨e, hemem, by simpa using hedst⟩
      obtain ⟨p, ps, hps⟩ : ∃ p ps, predsOf s1.edges k = p :: ps := by
        obtain ⟨e, hemem, hedst⟩ := hpredne
        have hmem : e.src ∈ predsOf s1.edges k := by
          unfold predsOf
          exact List.mem_map_of_mem _ (List.mem_filter.mpr ⟨hemem, by simp [hedst]⟩)
        cases hpp : predsOf s1.edges k with
        | nil => rw [hpp] at hmem; exact absurd hmem (List.not_mem_nil _)
        | cons p ps => exact ⟨p, ps, rfl⟩
      rw [hps]
      simp only [List.head?]
      split
      · -- ancestor cycle: mark failure and keep popping
        rename_i hcycle
        have hlen1 : (updateEdgeStatus s1 p k CallStatus.failure).frontier.length < n := by
          have h1 : (updateEdgeStatus s1 p k CallStatus.failure).frontier
              = (k0 :: rest).eraseIdx i := rfl
          rw [h1, List.length_eraseIdx]
          simp only [hargs', if_true]
          rw [hfr] at hlen
          simp only [List.length_cons] at hlen hargs' ⊢
          omega
        have hwfu : TreeWF (updateEdgeStatus s1 p k CallStatus.failure) :=
          TreeWF_updateEdgeStatus s1 p k CallStatus.failure hwf1
        rcases ih (updateEdgeStatus s1 p k CallStatus.failure) hwfu hlen1 with
          ⟨s2, hrun, hwf2, hnodes2⟩ | ⟨k2, s2, hrun, hrest⟩
        · left
          exact ⟨s2, hrun, hwf2, hnodes2⟩
        · right
          exact ⟨k2, s2, hrun, hrest⟩
      · -- no cycle: pop succeeds
        right
        set s2 : CallState := updateEdgeStatus s1 p k CallStatus.called with hs2def
        refine ⟨k, { s2 with nCalls := s2.nCalls + 1, current := k }, rfl, ?_, rfl, rfl,
          ?_, ?_, hrank, ?_⟩
        · exact TreeWF_updateEdgeStatus s1 p k CallStatus.called hwf1
        · exact hkeymem1
        · exact htip1
        · exact hnotfr1

/-- Registering one fresh child trace node with its single incoming edge
preserves the tree invariant; the new key is itself a leaf. -/
theorem TreeWF_addChild (s : CallState) (P k : CallKey) (node : HNode) (g : HGraph)
    (hwf : TreeWF s) (hP : keyMem s P) (hPfr : P ∉ s.frontier)
    (hfresh : ¬ keyMem s k) (hrank : k.rank = P.rank + 1)
    (hbr : k.branch = P.branch ∨ (∀ tn ∈ s.nodes, tn.key.branch < k.branch))
    (hbound : k.branch ≤ s.nBranches) :
    TreeWF (addCallEdge (addTraceNode s ⟨k, node, g⟩) ⟨P, k, CallStatus.unexplored⟩) ∧
    (addCallEdge (addTraceNode s ⟨k, node, g⟩) ⟨P, k, CallStatus.unexplored⟩).nodes
      = s.nodes ++ [⟨k, node, g⟩] ∧
    (addCallEdge (addTraceNode s ⟨k, node, g⟩) ⟨P, k, CallStatus.unexplored⟩).edges
      = s.edges ++ [⟨P, k, CallStatus.unexplored⟩] ∧
    (addCallEdge (addTraceNode s ⟨k, node, g⟩) ⟨P, k, CallStatus.unexplored⟩).frontier
      = s.frontier ∧
    (addCallEdge (addTraceNode s ⟨k, node, g⟩) ⟨P, k, CallStatus.unexplored⟩).current
      = s.current ∧
    (addCallEdge (addTraceNode s ⟨k, node, g⟩) ⟨P, k, CallStatus.unexplored⟩).nBranches
      = s.nBranches ∧
    ¬ keyMem (addCallEdge (addTraceNode s ⟨k, node, g⟩) ⟨P, k, CallStatus.unexplored⟩)
      ⟨k.branch, k.rank + 1⟩ := by
  obtain ⟨w1, w2, w3, w4, w5, w6, w7, w8⟩ := hwf
  have hknroot : ¬ k = rootKey := by
    intro hcon
    have := congrArg CallKey.rank hcon
    rw [hrank] at this
    simp [rootKey] at this
  have hnodesA : (addTraceNode s ⟨k, node, g⟩).nodes = s.nodes ++ [⟨k, node, g⟩] := by
    unfold addTraceNode
    have hany : ¬ (s.nodes.any fun t => t.key = k) = true := by
      intro hany
      obtain ⟨tn, htn, hkey⟩ := List.any_eq_true.mp hany
      exact hfresh ⟨tn, htn, of_decide_eq_true hkey⟩
    rw [if_neg hany]
  have hA := addTraceNode_fields s ⟨k, node, g⟩
  have hB := addCallEdge_fields (addTraceNode s ⟨k, node, g⟩) ⟨P, k, CallStatus.unexplored⟩
  have hnodes2 : (addCallEdge (addTraceNode s ⟨k, node, g⟩)
      ⟨P, k, CallStatus.unexplored⟩).nodes = s.nodes ++ [⟨k, node, g⟩] :=
    hB.2.2.1.trans hnodesA
  have hedges2 : (addCallEdge (addTraceNode s ⟨k, node, g⟩)
      ⟨P, k, CallStatus.unexplored⟩).edges
      = s.edges ++ [⟨P, k, CallStatus.unexplored⟩] := by
    unfold addCallEdge
    have hany : ¬ ((addTraceNode s ⟨k, node, g⟩).edges.any fun d =>
        d.src = P ∧ d.dst = k) = true := by
      rw [hA.2.2.1]
      intro hany
      obtain ⟨e, hemem, hcond⟩ := List.any_eq_true.mp hany
      have hc := of_decide_eq_true hcond
      have hdst := (w4 e hemem).2
      rw [hc.2] at hdst
      exact hfresh hdst
    rw [if_neg hany]
    dsimp only
    rw [hA.2.2.1]
  have hfr2 : (addCallEdge (addTraceNode s ⟨k, node, g⟩)
      ⟨P, k, CallStatus.unexplored⟩).frontier = s.frontier := hB.1.trans hA.1
  have hcur2 : (addCallEdge (addTraceNode s ⟨k, node, g⟩)
      ⟨P, k, CallStatus.unexplored⟩).current = s.current := hB.2.1.trans hA.2.1
  have hnb2 : (addCallEdge (addTraceNode s ⟨k, node, g⟩)
      ⟨P, k, CallStatus.unexplored⟩).nBranches = s.nBranches :=
    hB.2.2.2.1.trans hA.2.2.2.1
  set s2 := addCallEdge (addTraceNode s ⟨k, node, g⟩) ⟨P, k, CallStatus.unexplored⟩
    with hs2
  have hkm : ∀ x, keyMem s2 x ↔ (keyMem s x ∨ x = k) := by
    intro x
    unfold keyMem
    rw [hnodes2]
    constructor
    · rintro ⟨tn, htn, hkey⟩
      rcases List.mem_append.mp htn with h0 | h0
      · exact Or.inl ⟨tn, h0, hkey⟩
      · right
        rw [List.mem_singleton.mp h0] at hkey
        exact hkey.symm
    · rintro (⟨tn, htn, hkey⟩ | hxk)
      · exact ⟨tn, List.mem_append_left _ htn, hkey⟩
      · exact ⟨⟨k, node, g⟩, List.mem_append_right _ (List.mem_singleton.mpr rfl), hxk.symm⟩
  have hindeg : ∀ x, inDeg s2.edges x = inDeg s.edges x + (if k = x then 1 else 0) := by
    intro x
    unfold inDeg
    rw [hedges2, List.countP_append, List.countP_singleton]
    simp only [decide_eq_true_eq]
  have holddeg : inDeg s.edges k = 0 := by
    apply List.countP_eq_zero.mpr
    intro e hemem hdecide
    have hdst : e.dst = k := of_decide_eq_true hdecide
    have := (w4 e hemem).2
    rw [hdst] at this
    exact hfresh this
  have hPrankmem : k.branch = P.branch → keyMem s ⟨k.branch, P.rank⟩ := by
    intro hbl
    rw [hbl]
    exact hP
  have hfreshbranch : (∀ tn ∈ s.nodes, tn.key.branch < k.branch) →
      ∀ r2, ¬ keyMem s ⟨k.branch, r2⟩ := by
    intro hbh r2
    rintro ⟨tn, htn, hkey⟩
    have := hbh tn htn
    rw [hkey] at this
    exact absurd this (by simp)
  refine ⟨⟨?_, ?_, ?_, ?_, ?_, ?_, ?_, ?_⟩, hnodes2, hedges2, hfr2, hcur2, hnb2, ?_⟩
  · -- keys pairwise distinct
    rw [hnodes2, List.map_append]
    rw [List.nodup_append]
    refine ⟨w1, List.nodup_singleton _, ?_⟩
    intro x hx hx2
    simp only [List.map_cons, List.map_nil, List.mem_singleton] at hx2
    obtain ⟨tn, htn, hkey⟩ := List.mem_map.mp hx
    exact hfresh ⟨tn, htn, hkey.trans hx2⟩
  · -- unique parent for every non-root
    intro tn htn
    rw [hnodes2] at htn
    rcases List.mem_append.mp htn with h0 | h0
    · rcases w2 tn h0 with hroot | hdeg
      · exact Or.inl hroot
      · right
        rw [hindeg]
        have hne : ¬ k = tn.key := by
          intro hcon
          exact hfresh ⟨tn, h0, hcon.symm⟩
        rw [if_neg hne]
        omega
    · right
      rw [List.mem_singleton.mp h0]
      show inDeg s2.edges k = 1
      rw [hindeg, holddeg, if_pos rfl]
  · -- root has no parent
    rw [hindeg, w3, if_neg hknroot]
  · -- edges connect registered keys
    intro e he
    rw [hedges2] at he
    rcases List.mem_append.mp he with h0 | h0
    · have := w4 e h0
      exact ⟨(hkm e.src).mpr (Or.inl this.1), (hkm e.dst).mpr (Or.inl this.2)⟩
    · rw [List.mem_singleton.mp h0]
      exact ⟨(hkm P).mpr (Or.inl hP), (hkm k).mpr (Or.inr rfl)⟩
  · -- branch numbers bounded
    intro tn htn
    rw [hnb2]
    rw [hnodes2] at htn
    rcases List.mem_append.mp htn with h0 | h0
    · exact w5 tn h0
    · rw [List.mem_singleton.mp h0]
      exact hbound
  · -- ranks on one branch form an interval
    intro b r1 r2 r hm1 hm2 h1r hr2
    rw [hkm] at hm1 hm2 ⊢
    rcases hm1 with hm1 | hm1k <;> rcases hm2 with hm2 | hm2k
    · exact Or.inl (w6 b r1 r2 r hm1 hm2 h1r hr2)
    · have hb : b = k.branch := by rw [← hm2k]
      have hr2k : r2 = k.rank := by rw [← hm2k]
      rcases hbr with hbl | hbh
      · by_cases hrtop : r = r2
        · right
          rw [hrtop]
          exact hm2k
        · left
          have hPm : keyMem s ⟨b, P.rank⟩ := by
            rw [hb]
            exact hPrankmem hbl
          exact w6 b r1 P.rank r hm1 hPm h1r (by omega)
      · exact absurd (hb ▸ hm1) (hfreshbranch hbh r1)
    · have hb : b = k.branch := by rw [← hm1k]
      have hr1k : r1 = k.rank := by rw [← hm1k]
      rcases hbr with hbl | hbh
      · by_cases hrbot : r = r1
        · right
          rw [hrbot]
          exact hm1k
        · exfalso
          have hPm : keyMem s ⟨b, P.rank⟩ := by
            rw [hb]
            exact hPrankmem hbl
          have hmid : keyMem s ⟨b, P.rank + 1⟩ :=
            w6 b P.rank r2 (P.rank + 1) hPm hm2 (by omega) (by omega)
          apply hfresh
          have hkeq : (⟨b, P.rank + 1⟩ : CallKey) = k := by
            rw [hb, ← hrank]
          rw [hkeq] at hmid
          exact hmid
      · exact absurd (hb ▸ hm2) (hfreshbranch hbh r2)
    · have hr1k : r1 = k.rank := by rw [← hm1k]
      have hb : b = k.branch := by rw [← hm1k]
      have hr2k : r2 = k.rank := by rw [← hm2k]
      right
      have hrk : r = k.rank := by omega
      rw [hb, hrk]
  · -- frontier entries stay registered leaves
    intro f hf
    rw [hfr2] at hf
    obtain ⟨hfk, hft, hfr1⟩ := w7 f hf
    refine ⟨(hkm f).mpr (Or.inl hfk), ?_, hfr1⟩
    rw [hkm]
    rintro (hold | heqk)
    · exact hft hold
    · rcases hbr with hbl | hbh
      · apply hPfr
        have hb : f.branch = k.branch := by rw [← heqk]
        have hr : f.rank + 1 = k.rank := by rw [← heqk]
        have h1 : f.branch = P.branch := by rw [hb, hbl]
        have h2 : f.rank = P.rank := by omega
        have hfP : f = P := by
          calc f = ⟨f.branch, f.rank⟩ := rfl
          _ = ⟨P.branch, P.rank⟩ := by rw [h1, h2]
          _ = P := rfl
        rw [← hfP]
        exact hf
      · exfalso
        have hb : f.branch = k.branch := by rw [← heqk]
        obtain ⟨tnf, htf, hkf⟩ := hfk
        have hlt := hbh tnf htf
        rw [hkf] at hlt
        omega
  · -- frontier duplicate-free
    rw [hfr2]
    exact w8
  · -- the new key is a leaf
    rw [hkm]
    rintro (hold | heq)
    · rcases hbr with hbl | hbh
      · have hPm : keyMem s ⟨k.branch, P.rank⟩ := hPrankmem hbl
        have hmid : keyMem s ⟨k.branch, P.rank + 1⟩ :=
          w6 k.branch P.rank (k.rank + 1) (P.rank + 1) hPm hold (by omega) (by omega)
        apply hfresh
        have hkeq : (⟨k.branch, P.rank + 1⟩ : CallKey) = k := by
          rw [← hrank]
        rw [hkeq] at hmid
        exact hmid
      · exact hfreshbranch hbh (k.rank + 1) hold
    · have hcon0 : CallKey.rank ⟨k.branch, k.rank + 1⟩ = CallKey.rank k :=
        congrArg CallKey.rank heq
      have hcon : k.rank + 1 = k.rank := hcon0
      omega

/-- Taking a fresh branch number preserves the tree invariant. -/
theorem TreeWF_bumpBranches (s : CallState) (h : TreeWF s) :
    TreeWF { s with nBranches := s.nBranches + 1 } := by
  obtain ⟨w1, w2, w3, w4, w5, w6, w7, w8⟩ := h
  refine ⟨w1, w2, w3, w4, ?_, w6, w7, w8⟩
  intro tn htn
  have := w5 tn htn
  simp only
  omega

/-- Registered keys stay registered after appending a trace node. -/
theorem keyMem_append {s2 s : CallState} {T : TraceNode}
    (h : s2.nodes = s.nodes ++ [T]) {x : CallKey} (hx : keyMem s x) : keyMem s2 x := by
  obtain ⟨tn, htn, hkey⟩ := hx
  exact ⟨tn, by rw [h]; exact List.mem_append_left _ htn, hkey⟩

/-- A key registered after appending a trace node was registered before or is
the new node's key. -/
theorem keyMem_append_elim {s2 s : CallState} {T : TraceNode}
    (h : s2.nodes = s.nodes ++ [T]) {x : CallKey} (hx : keyMem s2 x) :
    keyMem s x ∨ x = T.key := by
  obtain ⟨tn, htn, hkey⟩ := hx
  rw [h] at htn
  rcases List.mem_append.mp htn with h0 | h0
  · exact Or.inl ⟨tn, h0, hkey⟩
  · right
    rw [List.mem_singleton.mp h0] at hkey
    exact hkey.symm

/-- Folding `extendStep` over candidate nodes preserves the tree invariant;
the produced keys are registered leaves of rank `parent.rank + 1`, pairwise
distinct and not on the frontier. -/
theorem extendStep_fold_wf (env : EvalEnv) (g : HGraph) (P : CallKey) :
    ∀ (ns : List HNode) (s : CallState) (ks : List CallKey) (i : Nat),
    TreeWF s → s.current = P → keyMem s P → P ∉ s.frontier →
    (i = 0 → ¬ keyMem s ⟨P.branch, P.rank + 1⟩) →
    (∀ c ∈ ks, keyMem s c ∧ ¬ keyMem s ⟨c.branch, c.rank + 1⟩ ∧ c.rank = P.rank + 1 ∧
      c ∉ s.frontier) →
    ks.Nodup →
    TreeWF (ns.foldl (extendStep env g P) (s, ks, i)).1 ∧
    (ns.foldl (extendStep env g P) (s, ks, i)).1.frontier = s.frontier ∧
    (∀ c ∈ (ns.foldl (extendStep env g P) (s, ks, i)).2.1,
      keyMem (ns.foldl (extendStep env g P) (s, ks, i)).1 c ∧
      ¬ keyMem (ns.foldl (extendStep env g P) (s, ks, i)).1 ⟨c.branch, c.rank + 1⟩ ∧
      c.rank = P.rank + 1 ∧ c ∉ (ns.foldl (extendStep env g P) (s, ks, i)).1.frontier) ∧
    (ns.foldl (extendStep env g P) (s, ks, i)).2.1.Nodup := by
  intro ns
  induction ns with
  | nil =>
    intro s ks i hwf hcur hP hPfr hi0 hks hnd
    exact ⟨hwf, rfl, hks, hnd⟩
  | cons n rest ih =>
    intro s ks i hwf hcur hP hPfr hi0 hks hnd
    simp only [List.foldl_cons]
    set branchId := if 0 < i then s.nBranches + 1 else P.branch with hbid
    set sA := if 0 < i then { s with nBranches := s.nBranches + 1 } else s with hsA
    set k : CallKey := ⟨branchId, P.rank + 1⟩ with hkdef
    set node2 := (env.registryNode n.name).getD n with hnode2
    have hstep : extendStep env g P (s, ks, i) n =
        (addCallEdge (addTraceNode sA ⟨k, node2, g⟩) ⟨P, k, CallStatus.unexplored⟩,
          ks ++ [k], i + 1) := rfl
    rw [hstep]
    have hnodesA : sA.nodes = s.nodes := by
      rw [hsA]; split <;> rfl
    have hfrA : sA.frontier = s.frontier := by
      rw [hsA]; split <;> rfl
    have hcurA : sA.current = s.current := by
      rw [hsA]; split <;> rfl
    have hkmA : ∀ x, keyMem sA x ↔ keyMem s x := by
      intro x
      unfold keyMem
      rw [hnodesA]
    have hwfA : TreeWF sA := by
      rw [hsA]; split
      · exact TreeWF_bumpBranches s hwf
      · exact hwf
    have hPbound : P.branch ≤ s.nBranches := by
      obtain ⟨tn, htn, hkey⟩ := hP
      have := hwf.2.2.2.2.1 tn htn
      rw [hkey] at this
      exact this
    have hfresh : ¬ keyMem sA k := by
      rw [hkmA]
      rw [hkdef, hbid]
      by_cases hipos : 0 < i
      · simp only [hipos, if_true]
        rintro ⟨tn, htn, hkey⟩
        have := hwf.2.2.2.2.1 tn htn
        rw [hkey] at this
        simp only at this
        omega
      · simp only [hipos, if_false]
        exact hi0 (by omega)
    have hbr : k.branch = P.branch ∨ (∀ tn ∈ sA.nodes, tn.key.branch < k.branch) := by
      rw [hkdef, hbid]
      by_cases hipos : 0 < i
      · right
        intro tn htn
        rw [hnodesA] at htn
        have := hwf.2.2.2.2.1 tn htn
        simp only [hipos, if_true]
        omega
      · left
        simp [hipos]
    have hbound : k.branch ≤ sA.nBranches := by
      rw [hkdef, hbid, hsA]
      by_cases hipos : 0 < i
      · simp [hipos]
      · simp only [hipos, if_false]
        exact hPbound
    have hrank : k.rank = P.rank + 1 := rfl
    have hadd := TreeWF_addChild sA P k node2 g hwfA
      ((hkmA P).mpr hP) (by rw [hfrA]; exact hPfr) hfresh hrank hbr hbound
    obtain ⟨hwfC, hnodesC, _hedgesC, hfrC, hcurC, _hnbC, htipC⟩ := hadd
    set sC := addCallEdge (addTraceNode sA ⟨k, node2, g⟩) ⟨P, k, CallStatus.unexplored⟩
      with hsC
    have hfrC2 : sC.frontier = s.frontier := hfrC.trans hfrA
    have hcurC2 : sC.current = P := (hcurC.trans hcurA).trans hcur
    have hkmem : ∀ x, keyMem s x → keyMem sC x := by
      intro x hx
      exact keyMem_append hnodesC ((hkmA x).mpr hx)
    have hkelim : ∀ x, keyMem sC x → keyMem s x ∨ x = k := by
      intro x hx
      rcases keyMem_append_elim hnodesC hx with h0 | h0
      · exact Or.inl ((hkmA x).mp h0)
      · exact Or.inr h0
    have hksC : ∀ c ∈ ks ++ [k], keyMem sC c ∧ ¬ keyMem sC ⟨c.branch, c.rank + 1⟩ ∧
        c.rank = P.rank + 1 ∧ c ∉ sC.frontier := by
      intro c hc
      rcases List.mem_append.mp hc with h0 | h0
      · obtain ⟨hc1, hc2, hc3, hc4⟩ := hks c h0
        refine ⟨hkmem c hc1, ?_, hc3, by rw [hfrC2]; exact hc4⟩
        intro hcon
        rcases hkelim _ hcon with h1 | h1
        · exact hc2 h1
        · have hr : c.rank + 1 = k.rank :=
            congrArg CallKey.rank h1
          rw [hrank, hc3] at hr
          omega
      · rw [List.mem_singleton.mp h0]
        refine ⟨?_, htipC, hrank, ?_⟩
        · refine ⟨⟨k, node2, g⟩, ?_, rfl⟩
          rw [hnodesC]
          exact List.mem_append_right _ (List.mem_singleton.mpr rfl)
        · rw [hfrC2]
          intro hcon
          have := hwf.2.2.2.2.2.2.1 k hcon
          exact ((hkmA k).mpr this.1 |> hfresh)
    have hndC : (ks ++ [k]).Nodup := by
      rw [List.nodup_append]
      refine ⟨hnd, List.nodup_singleton _, ?_⟩
      intro c hc
      simp only [List.mem_singleton]
      intro hck
      obtain ⟨hc1, _, _, _⟩ := hks c hc
      rw [hck] at hc1
      exact hfresh ((hkmA k).mpr hc1)
    have hres := ih sC (ks ++ [k]) (i + 1) hwfC hcurC2 (hkmem P hP)
      (by rw [hfrC2]; exact hPfr)
      (by intro h0; exact absurd h0 (Nat.succ_ne_zero i))
      hksC hndC
    exact ⟨hres.1, hres.2.1.trans hfrC2, hres.2.2.1, hres.2.2.2⟩

/-- Extending the frontier below a freshly popped leaf preserves the tree
invariant. -/
theorem extendFrontiere_wf (env : EvalEnv) (s : CallState) (g : HGraph)
    (ns : List HNode) (hwf : TreeWF s) (hP : keyMem s s.current)
    (hPfr : s.current ∉ s.frontier)
    (htip : ¬ keyMem s ⟨s.current.branch, s.current.rank + 1⟩) :
    TreeWF (extendFrontiere env s g ns) := by
  unfold extendFrontiere
  dsimp only
  have hres := extendStep_fold_wf env g s.current ns s [] 0 hwf rfl hP hPfr
    (fun _ => htip) (by intro c hc; exact absurd hc (List.not_mem_nil c)) List.nodup_nil
  obtain ⟨⟨w1, w2, w3, w4, w5, w6, w7, w8⟩, hfr, hks, hnd⟩ := hres
  refine ⟨w1, w2, w3, w4, w5, w6, ?_, ?_⟩
  · intro f hf
    rcases List.mem_append.mp hf with h0 | h0
    · exact w7 f h0
    · obtain ⟨hc1, hc2, hc3, _⟩ := hks f h0
      exact ⟨hc1, hc2, by omega⟩
  · rw [List.nodup_append]
    refine ⟨w8, hnd, ?_⟩
    intro f hf
    intro hf2
    exact (hks f hf2).2.2.2 hf

/-- The evaluation loop preserves the tree invariant and never hits the
internal single-parent lookup failure. -/
theorem runLoop_wf (env : EvalEnv) : ∀ (fuel : Nat) (s : CallState), TreeWF s →
    TreeWF (runLoop env fuel s).2 ∧
    (runLoop env fuel s).1 ≠ Except.error EvalErr.internalFailure := by
  intro fuel
  induction fuel with
  | zero =>
    intro s hwf
    exact ⟨hwf, by simp [runLoop]⟩
  | succ n ih =>
    intro s hwf
    rw [runLoop]
    rcases popLoop_wf (s.frontier.length + 1) s hwf (Nat.lt_succ_self _) with
      ⟨s2, hrun, hwf2, _⟩ |
      ⟨k, s2, hrun, hwf2, hcur2, _hnodes2, hkm2, htip2, _hrank2, hnfr2⟩
    · unfold popFromFrontiere
      rw [hrun]
      exact ⟨hwf2, by simp⟩
    · unfold popFromFrontiere
      rw [hrun]
      dsimp only
      cases htn : traceNodeAt s2 k with
      | none =>
        exfalso
        obtain ⟨tn, htnmem, hkey⟩ := hkm2
        have hsome : (traceNodeAt s2 k).isSome := by
          unfold traceNodeAt
          rw [List.find?_isSome]
          exact ⟨tn, htnmem, by simp [hkey]⟩
        rw [htn] at hsome
        simp at hsome
      | some tn =>
        dsimp only
        have hPcur : keyMem s2 s2.current := by rw [hcur2]; exact hkm2
        have hPfr : s2.current ∉ s2.frontier := by rw [hcur2]; exact hnfr2
        have hPtip : ¬ keyMem s2 ⟨s2.current.branch, s2.current.rank + 1⟩ := by
          rw [hcur2]
          exact htip2
        cases hk : tn.hebNode.kind with
        | action =>
          exact ⟨hwf2, by simp⟩
        | behavior =>
          dsimp only
          cases hg : env.registryGraph tn.hebNode.name with
          | none => exact ⟨hwf2, by simp⟩
          | some g2 =>
            exact ih _ (extendFrontiere_wf env s2 g2 (rootsOf g2) hwf2 hPcur hPfr hPtip)
        | featureCondition =>
          dsimp only
          cases hfind : s2.knownFc.find? (fun p => p.1 = tn.hebNode.name) with
          | some cached =>
            dsimp only
            by_cases he :
                (getSuccessorsWithIndex tn.graph tn.hebNode cached.2).isEmpty = true
            · rw [if_pos he]
              exact ⟨hwf2, by simp⟩
            · rw [if_neg he]
              exact ih _ (extendFrontiere_wf env s2 tn.graph _ hwf2 hPcur hPfr hPtip)
          | none =>
            dsimp only
            have hwf3 : TreeWF { s2 with
                knownFc := s2.knownFc ++ [(tn.hebNode.name,
                  env.fcEval tn.hebNode.name (s2.fcApps.count tn.hebNode.name))],
                fcApps := s2.fcApps ++ [tn.hebNode.name] } := hwf2
            by_cases he : (getSuccessorsWithIndex tn.graph tn.hebNode
                (env.fcEval tn.hebNode.name (s2.fcApps.count tn.hebNode.name))).isEmpty = true
            · rw [if_pos he]
              exact ⟨hwf3, by simp⟩
            · rw [if_neg he]
              exact ih _ (extendFrontiere_wf env _ tn.graph _ hwf3 hPcur hPfr hPtip)
        | empty =>
          exact ih _ (extendFrontiere_wf env s2 tn.graph _ hwf2 hPcur hPfr hPtip)

/-- The seeded call graph of a fresh evaluation satisfies the tree
invariant. -/
theorem initialState_wf (g : HGraph) : TreeWF (initialState g) := by
  refine ⟨?_, ?_, ?_, ?_, ?_, ?_, ?_, ?_⟩
  · simp [initialState]
  · intro tn htn
    left
    rw [List.mem_singleton.mp htn]
  · rfl
  · intro e he
    exact absurd he (List.not_mem_nil e)
  · intro tn htn
    rw [List.mem_singleton.mp htn]
    exact Nat.le_refl 0
  · intro b r1 r2 r hm1 hm2 h1 h2
    obtain ⟨tn1, htn1, hkey1⟩ := hm1
    rw [List.mem_singleton.mp htn1] at hkey1
    obtain ⟨tn2, htn2, hkey2⟩ := hm2
    rw [List.mem_singleton.mp htn2] at hkey2
    have hb : 0 = b := congrArg CallKey.branch hkey1
    have hr1 : 0 = r1 := congrArg CallKey.rank hkey1
    have hr2 : 0 = r2 := congrArg CallKey.rank hkey2
    have hr : r = 0 := by omega
    refine ⟨⟨rootKey, g.behavior, g⟩, List.mem_singleton.mpr rfl, ?_⟩
    rw [← hb, hr]
    rfl
  · intro kk hkk
    exact absurd hkk (List.not_mem_nil kk)
  · exact List.nodup_nil

/-- C10: every call graph produced by an evaluation is a tree rooted at the
initial trace node: the `(branch, rank)` trace keys never collide, every
trace node except the root has exactly one predecessor, and the single-parent
lookup performed when popping from the frontier never fails. -/
theorem call_graph_is_tree (env : EvalEnv) (g : HGraph) (fuel : Nat) :
    ((evalGraph env g fuel).2.nodes.map TraceNode.key).Nodup ∧
    (∀ tn ∈ (evalGraph env g fuel).2.nodes, ¬ tn.key = rootKey →
      inDeg (evalGraph env g fuel).2.edges tn.key = 1) ∧
    (evalGraph env g fuel).1 ≠ Except.error EvalErr.internalFailure := by
  have hwf0 : TreeWF (initialState g) := initialState_wf g
  have hcur0 : keyMem (initialState g) (initialState g).current :=
    ⟨⟨rootKey, g.behavior, g⟩, List.mem_singleton.mpr rfl, rfl⟩
  have hfr0 : (initialState g).current ∉ (initialState g).frontier :=
    List.not_mem_nil _
  have htip0 : ¬ keyMem (initialState g)
      ⟨(initialState g).current.branch, (initialState g).current.rank + 1⟩ := by
    rintro ⟨tn, htn, hkey⟩
    rw [List.mem_singleton.mp htn] at hkey
    have := congrArg CallKey.rank hkey
    simp [rootKey, initialState] at this
  have hext : TreeWF (extendFrontiere env (initialState g) g (rootsOf g)) :=
    extendFrontiere_wf env (initialState g) g (rootsOf g) hwf0 hcur0 hfr0 htip0
  have hrun := runLoop_wf env fuel _ hext
  refine ⟨hrun.1.1, ?_, hrun.2⟩
  intro tn htn hroot
  rcases hrun.1.2.1 tn htn with h0 | h0
  · exact absurd h0 hroot
  · exact h0

/-- Without `cut_looping_alternatives`, `_unroll_behavior` never touches the
loop state's record of the input graph object. -/
theorem unrollBehavior_inputState (recG : List HNode → UMap → HGraph → UnrollRes)
    (env : UnrollEnv) (addPre : Bool) (node : HNode) (st : UnrollLoopState) :
    (unrollBehavior recG env addPre false node st).inputState = st.inputState := by
  unfold unrollBehavior
  dsimp only
  rw [if_neg (by simp)]
  cases (unrolledBehaviorGraph recG env node.name st.curAlts st.umap).1 with
  | none => rfl
  | some ng => rfl

/-- Without `cut_looping_alternatives`, the behavior-node loop of
`_unroll_graph` never touches the record of the input graph object. -/
theorem unrollNodes_inputState (recG : List HNode → UMap → HGraph → UnrollRes)
    (env : UnrollEnv) (addPre : Bool) :
    ∀ (ns : List HNode) (st : UnrollLoopState),
    (unrollNodes (unrollBehavior recG env addPre false) ns st).inputState
      = st.inputState := by
  intro ns
  induction ns with
  | nil => intro st; rfl
  | cons n rest ih =>
    intro st
    rw [unrollNodes]
    rw [ih, unrollBehavior_inputState]

/-- Without `cut_looping_alternatives`, `_unroll_graph` leaves its input graph
object exactly as it received it. -/
theorem unrollG_inputAfter (env : UnrollEnv) (addPre : Bool) :
    ∀ (fuel : Nat) (curAlts : List HNode) (umap : UMap) (g : HGraph),
    (unrollG env addPre false fuel curAlts umap g).inputAfter = g := by
  intro fuel
  cases fuel with
  | zero => intro curAlts umap g; rfl
  | succ n =>
    intro curAlts umap g
    rw [unrollG]
    rw [unrollNodes_inputState]

/-- C3 counterexample: with `cut_looping_alternatives=True`, unrolling the
self-referencing fixture (whose looping branch has a sibling alternative)
mutates the input graph object — the cut branch rewires and removes the
looping behavior node while the working copy still shares the input's
networkx storage (`copy.copy` is shallow), so the input is not left
unchanged for every setting of the flags. -/
theorem unroll_cut_mutates_input :
    unrollInputAfter unresolvableEnv cexSelfRefGraph false true 1 ≠ cexSelfRefGraph := by
  decide

/-- C3 (amended): with `cut_looping_alternatives=False` (the default),
`unroll_graph` leaves the input graph completely unchanged, for every
environment, graph, `add_prefix` setting and recursion depth. -/
theorem unroll_preserves_input_without_cut (env : UnrollEnv) (g : HGraph)
    (addPre : Bool) (fuel : Nat) :
    unrollInputAfter env g addPre false fuel = g := by
  unfold unrollInputAfter
  rw [unrollG_inputAfter]

/-- A behavior node that neither resolves nor hits an in-progress sentinel
compatible with cutting is kept as an opaque leaf: only the `is_looping` flag
can change. -/
theorem unrollBehavior_unresolvable (recG : List HNode → UMap → HGraph → UnrollRes)
    (env : UnrollEnv) (addPre cut : Bool) (node : HNode) (st : UnrollLoopState)
    (hres : env.resolveGraph node.name = none)
    (hu : umapFind st.umap node.name = none ∨
      (umapFind st.umap node.name = some none ∧ cut = false)) :
    ∃ b, unrollBehavior recG env addPre cut node st = { st with looping := b } := by
  unfold unrollBehavior unrolledBehaviorGraph
  rcases hu with hu | ⟨hu, hcut⟩
  · rw [hu, hres]
    dsimp only
    rw [if_neg (by simp)]
    exact ⟨st.looping ∨ false, rfl⟩
  · rw [hu, hcut]
    dsimp only
    rw [if_neg (by simp)]
    exact ⟨st.looping ∨ (none : Option HGraph).isNone, rfl⟩

/-- The behavior-node loop over unresolvable behaviors only updates the
`is_looping` flag and the running alternatives. -/
theorem unrollNodes_unresolvable (recG : List HNode → UMap → HGraph → UnrollRes)
    (env : UnrollEnv) (addPre cut : Bool) :
    ∀ (ns : List HNode) (st : UnrollLoopState),
    (∀ n ∈ ns, env.resolveGraph n.name = none) →
    (∀ n ∈ ns, umapFind st.umap n.name = none ∨
      (umapFind st.umap n.name = some none ∧ cut = false)) →
    ∃ b alts, unrollNodes (unrollBehavior recG env addPre cut) ns st
      = { st with looping := b, curAlts := alts } := by
  intro ns
  induction ns with
  | nil =>
    intro st _ _
    exact ⟨st.looping, st.curAlts, rfl⟩
  | cons n rest ih =>
    intro st hres hu
    rw [unrollNodes]
    obtain ⟨b1, hb1⟩ := unrollBehavior_unresolvable recG env addPre cut n
      { st with curAlts := if (alternativesOf st.inputState n).isEmpty
          then st.curAlts else alternativesOf st.inputState n }
      (hres n (List.mem_cons_self n rest)) (hu n (List.mem_cons_self n rest))
    rw [hb1]
    obtain ⟨b, alts, hrest⟩ := ih
      { st with
        looping := b1
        curAlts := if (alternativesOf st.inputState n).isEmpty
          then st.curAlts else alternativesOf st.inputState n }
      (fun m hm => hres m (List.mem_cons_of_mem n hm))
      (fun m hm => hu m (List.mem_cons_of_mem n hm))
    rw [hrest]
    exact ⟨b, alts, rfl⟩

/-- C4 counterexample: the self-referencing fixture has no Behavior node
whose graph can be resolved (the environment resolves nothing), yet with
`cut_looping_alternatives=True` unrolling it does not return a graph
isomorphic to the input: the in-progress sentinel marks the subject's own
node as looping and the cut branch removes it, leaving two nodes of the
input's three. -/
theorem unroll_fixpoint_fails_with_cut :
    unrollGraph unresolvableEnv cexSelfRefGraph false true 1 ≠ cexSelfRefGraph := by
  decide

/-- C4 (amended): unrolling is a fixpoint on graphs with no resolvable
Behavior node, provided looping alternatives are not cut or no Behavior node
bears the subject behavior's own name: the result then equals the input
graph exactly. -/
theorem unroll_fixpoint_on_unresolvable (env : UnrollEnv) (g : HGraph)
    (addPre cut : Bool) (fuel : Nat)
    (h1 : ∀ n ∈ g.nodes, n.kind = NodeKind.behavior → env.resolveGraph n.name = none)
    (h2 : cut = false ∨
      ∀ n ∈ g.nodes, n.kind = NodeKind.behavior → ¬ n.name = g.behavior.name) :
    unrollGraph env g addPre cut fuel = g := by
  unfold unrollGraph
  cases fuel with
  | zero => rfl
  | succ m =>
    rw [unrollG]
    dsimp only
    obtain ⟨b, alts, hloop⟩ := unrollNodes_unresolvable
      (unrollG env addPre cut m) env addPre cut
      (g.nodes.filter (fun n => n.kind = NodeKind.behavior))
      ⟨g, true, g, [], umapSet [] g.behavior.name none, false⟩
      (by
        intro n hn
        have hmem := List.mem_filter.mp hn
        exact h1 n hmem.1 (of_decide_eq_true hmem.2))
      (by
        intro n hn
        have hmem := List.mem_filter.mp hn
        have hkind := of_decide_eq_true hmem.2
        show umapFind (umapSet [] g.behavior.name none) n.name = none ∨ _
        by_cases hsm : g.behavior.name = n.name
        · rcases h2 with hcut | hname
          · refine Or.inr ⟨?_, hcut⟩
            simp [umapFind, umapSet, List.find?, hsm]
          · exact absurd hsm.symm (hname n hmem.1 hkind)
        · refine Or.inl ?_
          simp [umapFind, umapSet, List.find?, hsm])
    rw [hloop]

/-- Closed-input check of the amended C4 theorem: without cutting, unrolling
the (unresolvable) self-referencing fixture returns it unchanged. -/
theorem unroll_fixpoint_on_unresolvable_witness :
    unrollGraph unresolvableEnv cexSelfRefGraph false false 1 = cexSelfRefGraph :=
  unroll_fixpoint_on_unresolvable unresolvableEnv cexSelfRefGraph false false 1
    (fun _ _ _ => rfl) (Or.inl rfl)

/-- Rewriting one entry of a count table does not disturb lookups of other
keys. -/
theorem find?_map_entry (p : PrevUsed) (name : String) (v : Int) (name2 : String)
    (hne : ¬ name = name2) :
    (p.map (fun q => if q.1 = name then (q.1, q.2 + v) else q)).find?
        (fun q => q.1 = name2)
      = p.find? (fun q => q.1 = name2) := by
  induction p with
  | nil => rfl
  | cons q rest ih =>
    rw [List.map_cons]
    by_cases hq2 : q.1 = name2
    · have hq : ¬ q.1 = name := fun h => hne (h.symm.trans hq2)
      rw [if_neg hq]
      rw [List.find?_cons_of_pos _ (by simp [hq2]), List.find?_cons_of_pos _ (by simp [hq2])]
    · by_cases hq : q.1 = name
      · rw [if_pos hq]
        rw [List.find?_cons_of_neg _ (by simp [hq2]), List.find?_cons_of_neg _ (by simp [hq2])]
        exact ih
      · rw [if_neg hq]
        rw [List.find?_cons_of_neg _ (by simp [hq2]), List.find?_cons_of_neg _ (by simp [hq2])]
        exact ih

/-- `update_sum_dict` for one key leaves every other key's count unchanged. -/
theorem prevGet_prevAddOne_ne (p : PrevUsed) (name : String) (v : Int)
    (name2 : String) (hne : ¬ name = name2) :
    prevGet (prevAddOne p name v) name2 = prevGet p name2 := by
  unfold prevAddOne prevGet
  by_cases hany : p.any (fun q => q.1 = name)
  · rw [if_pos hany, find?_map_entry p name v name2 hne]
  · rw [if_neg hany, List.find?_append]
    cases hp : p.find? (fun q => q.1 = name2) with
    | some q => rfl
    | none => simp [List.find?, hne]

/-- Evaluation of one `general_complexity` loop step on a node that is not a
recursively expandable Behavior. -/
theorem gcStep_no_expand (usedAll : UsedAll) (sc : HNode → Int → Int → Int)
    (kc : HNode → Int → Int) (recC : String → PrevUsed → Option (Int × Int))
    (T S : Int) (P : PrevUsed) (nk : HNode × Int)
    (hcond : ¬(nk.1.kind = NodeKind.behavior ∧
      (usedFind usedAll nk.1.name).isSome = true)) :
    gcStep usedAll sc kc recC (T, S, P) nk
      = some (T + nk.1.complexity * kc nk.1 nk.2,
          (if nk.1.kind = NodeKind.behavior ∨ nk.1.kind = NodeKind.action then
            S + nk.1.complexity * sc nk.1 nk.2 (prevGet P nk.1.name) else S),
          prevAddOne P nk.1.name nk.2) := by
  unfold gcStep
  rw [if_neg hcond]
  rfl

/-- Folding the `general_complexity` loop over a histogram with no
recursively expandable Behavior node and duplicate-free names accumulates
exactly the per-node totals and savings of the spec's formula, each node's
prior count being read from the initial table. -/
theorem gcStep_fold (usedAll : UsedAll) (sc : HNode → Int → Int → Int)
    (kc : HNode → Int → Int) (recC : String → PrevUsed → Option (Int × Int))
    (prev0 : PrevUsed) :
    ∀ (l : Histogram) (T S : Int) (P : PrevUsed),
    (∀ nk ∈ l, nk.1.kind = NodeKind.behavior →
      (usedFind usedAll nk.1.name).isSome = false) →
    (∀ nk ∈ l, prevGet P nk.1.name = prevGet prev0 nk.1.name) →
    (l.map (fun nk => nk.1.name)).Nodup →
    ∃ P2, l.foldlM (gcStep usedAll sc kc recC) (T, S, P)
      = some (T + (l.map (fun nk => nk.1.complexity * kc nk.1 nk.2)).sum,
          S + (l.map (fun nk =>
            if nk.1.kind = NodeKind.behavior ∨ nk.1.kind = NodeKind.action then
              nk.1.complexity * sc nk.1 nk.2 (prevGet prev0 nk.1.name)
            else 0)).sum, P2) := by
  intro l
  induction l with
  | nil =>
    intro T S P _ _ _
    exact ⟨P, by simp⟩
  | cons nk rest ih =>
    intro T S P h1 hprev hnd
    rw [List.foldlM_cons]
    have hcond : ¬(nk.1.kind = NodeKind.behavior ∧
        (usedFind usedAll nk.1.name).isSome = true) := by
      rintro ⟨hk, hs⟩
      rw [h1 nk (List.mem_cons_self nk rest) hk] at hs
      exact Bool.false_ne_true hs
    have hnotin : nk.1.name ∉ rest.map (fun x => x.1.name) := by
      have := List.nodup_cons.mp (by
        rw [List.map_cons] at hnd
        exact hnd)
      exact this.1
    obtain ⟨P2, hrest⟩ := ih (T + nk.1.complexity * kc nk.1 nk.2)
      (if nk.1.kind = NodeKind.behavior ∨ nk.1.kind = NodeKind.action then
        S + nk.1.complexity * sc nk.1 nk.2 (prevGet P nk.1.name) else S)
      (prevAddOne P nk.1.name nk.2)
      (fun m hm => h1 m (List.mem_cons_of_mem nk hm))
      (by
        intro m hm
        have hne : ¬ nk.1.name = m.1.name := by
          intro h
          exact hnotin (h ▸ List.mem_map_of_mem (fun x => x.1.name) hm)
        rw [prevGet_prevAddOne_ne P nk.1.name nk.2 m.1.name hne]
        exact hprev m (List.mem_cons_of_mem nk hm))
      (by
        rw [List.map_cons] at hnd
        exact (List.nodup_cons.mp hnd).2)
    refine ⟨P2, ?_⟩
    rw [gcStep_no_expand usedAll sc kc recC T S P nk hcond]
    show rest.foldlM (gcStep usedAll sc kc recC)
      (T + nk.1.complexity * kc nk.1 nk.2,
        (if nk.1.kind = NodeKind.behavior ∨ nk.1.kind = NodeKind.action then
          S + nk.1.complexity * sc nk.1 nk.2 (prevGet P nk.1.name) else S),
        prevAddOne P nk.1.name nk.2) = _
    rw [hrest]
    rw [List.map_cons, List.map_cons, List.sum_cons, List.sum_cons]
    have hp0 : prevGet P nk.1.name = prevGet prev0 nk.1.name :=
      hprev nk (List.mem_cons_self nk rest)
    by_cases hk : nk.1.kind = NodeKind.behavior ∨ nk.1.kind = NodeKind.action
    · rw [if_pos hk, if_pos hk, hp0]
      rw [add_assoc, add_assoc]
    · rw [if_neg hk, if_neg hk]
      rw [add_assoc, zero_add]

/-- C7 counterexample: for the two-behavior table in which behavior `A` uses
sub-behavior `B` once and `B`'s own histogram is present, `learning_complexity`
recursively expands `B` (its net complexity replaces the declared 100 and its
saved amount feeds both sums), so the result differs from the claimed
per-node formula, which would charge `B`'s declared complexity with no
saving. -/
theorem learning_complexity_formula_cex :
    learningComplexity cexUsedAll 3 "A" []
      ≠ claimedLearningComplexity cexUsedAll "A" [] := by
  decide

/-- C7 (amended): on a behavior whose histogram triggers no recursive
expansion (no used node is a Behavior with its own histogram in
`used_nodes_all`) and whose used-node names are duplicate-free,
`learning_complexity` returns exactly the claimed pair `(total - saved,
saved)`: each node with usage count `k` and prior count `p` contributes
`complexity * k` to the raw total, and Behavior and Action nodes additionally
save `complexity * max(0, min(k, p + k - 1))`. -/
theorem learning_complexity_formula (usedAll : UsedAll) (fuel : Nat)
    (behaviorName : String) (prev : PrevUsed) (hist : Histogram)
    (hh : usedFind usedAll behaviorName = some hist)
    (h1 : ∀ nk ∈ hist, nk.1.kind = NodeKind.behavior →
      (usedFind usedAll nk.1.name).isSome = false)
    (h2 : (hist.map (fun nk => nk.1.name)).Nodup) :
    learningComplexity usedAll (fuel + 1) behaviorName prev
      = claimedLearningComplexity usedAll behaviorName prev := by
  unfold learningComplexity claimedLearningComplexity
  rw [generalComplexity, hh]
  dsimp only
  obtain ⟨P2, hP2⟩ := gcStep_fold usedAll (fun _ k p => max 0 (min k (p + k - 1)))
    (fun _ k => k)
    (fun n p => generalComplexity usedAll (fun _ k p => max 0 (min k (p + k - 1)))
      (fun _ k => k) fuel n p)
    prev hist 0 0 prev h1 (fun _ _ => rfl) h2
  rw [hP2]
  simp

/-- Closed-input check of the amended C7 theorem on behavior `B`, whose
histogram is a single action used five times with no prior counts. -/
theorem learning_complexity_formula_witness :
    learningComplexity cexUsedAll 1 "B" [] = claimedLearningComplexity cexUsedAll "B" [] :=
  learning_complexity_formula cexUsedAll 0 "B" [] [(cexA0, 5)] rfl
    (by decide) (by decide)

/-- Adding a requirement edge for a pair not yet present appends it, with
index one plus the number of edges already outgoing from the requirement
node. -/
theorem reqAdd_edges_fresh (rq : ReqGraph) (p : String × String)
    (h : ¬ ∃ i, (p.1, p.2, i) ∈ rq.edges) :
    (reqAdd rq p).edges
      = rq.edges ++ [(p.1, p.2, (rq.edges.filter (fun e => e.1 = p.1)).length + 1)] := by
  have hany : rq.edges.any (fun d => d.1 = p.1 ∧ d.2.1 = p.2) = false := by
    by_contra hx
    rw [Bool.not_eq_false] at hx
    obtain ⟨d, hd, hdp⟩ := List.any_eq_true.mp hx
    have hdp2 : d.1 = p.1 ∧ d.2.1 = p.2 := of_decide_eq_true hdp
    refine h ⟨d.2.2, ?_⟩
    have hde : (p.1, p.2, d.2.2) = d := by
      obtain ⟨h1, h2⟩ := hdp2
      rw [← h1, ← h2]
    rw [hde]
    exact hd
  unfold reqAdd
  dsimp only
  by_cases hc : rq.nodes.contains p.1
  · rw [if_pos hc]
    unfold reqAddEdge
    dsimp only
    rw [hany, if_neg Bool.false_ne_true]
  · rw [if_neg hc]
    unfold reqAddEdge
    dsimp only
    rw [hany, if_neg Bool.false_ne_true]

/-- Folding the additions of the third loop of `build_requirement_graph`
over pairwise-distinct pairs none of which is present yet: a pair gains an
edge exactly if it is in the list, and for every requirement node the
outgoing indices enumerate `1, 2, …` in insertion order. -/
theorem foldPairs_spec : ∀ (ps : List (String × String)) (rq : ReqGraph),
    ps.Nodup →
    (∀ q ∈ ps, ¬ ∃ i, (q.1, q.2, i) ∈ rq.edges) →
    (∀ B, ((rq.edges.filter (fun e => e.1 = B)).map (fun e => e.2.2))
      = List.range' 1 ((rq.edges.filter (fun e => e.1 = B)).length)) →
    (∀ B A, (∃ i, (B, A, i) ∈ (ps.foldl reqAdd rq).edges)
        ↔ ((∃ i, (B, A, i) ∈ rq.edges) ∨ (B, A) ∈ ps)) ∧
    (∀ B, (((ps.foldl reqAdd rq).edges.filter (fun e => e.1 = B)).map (fun e => e.2.2))
      = List.range' 1 (((ps.foldl reqAdd rq).edges.filter (fun e => e.1 = B)).length)) := by
  intro ps
  induction ps with
  | nil =>
    intro rq _ _ hidx
    refine ⟨fun B A => by simp, fun B => hidx B⟩
  | cons p rest ih =>
    intro rq hnd hfresh hidx
    have hp := hfresh p (List.mem_cons_self p rest)
    have hedges1 := reqAdd_edges_fresh rq p hp
    have hmem1 : ∀ B A, (∃ i, (B, A, i) ∈ (reqAdd rq p).edges)
        ↔ ((∃ i, (B, A, i) ∈ rq.edges) ∨ (B, A) = p) := by
      intro B A
      constructor
      · rintro ⟨i, hi⟩
        rw [hedges1] at hi
        rcases List.mem_append.mp hi with hi | hi
        · exact Or.inl ⟨i, hi⟩
        · have he := List.mem_singleton.mp hi
          refine Or.inr ?_
          have h1 : B = p.1 := congrArg Prod.fst he
          have h2 : A = p.2 := congrArg (fun x => x.2.1) he
          rw [h1, h2]
      · rintro (⟨i, hi⟩ | he)
        · exact ⟨i, by rw [hedges1]; exact List.mem_append_left _ hi⟩
        · refine ⟨(rq.edges.filter (fun e => e.1 = p.1)).length + 1, ?_⟩
          rw [hedges1]
          refine List.mem_append_right _ ?_
          have h1 : B = p.1 := congrArg Prod.fst he
          have h2 : A = p.2 := congrArg Prod.snd he
          rw [h1, h2]
          exact List.mem_singleton.mpr rfl
    have hidx1 : ∀ B, (((reqAdd rq p).edges.filter (fun e => e.1 = B)).map (fun e => e.2.2))
        = List.range' 1 (((reqAdd rq p).edges.filter (fun e => e.1 = B)).length) := by
      intro B
      rw [hedges1, List.filter_append]
      by_cases hB : p.1 = B
      · have hfB : List.filter (fun e => e.1 = B)
            [(p.1, p.2, (rq.edges.filter (fun e => e.1 = p.1)).length + 1)]
            = [(p.1, p.2, (rq.edges.filter (fun e => e.1 = p.1)).length + 1)] := by
          simp [List.filter, hB]
        rw [hfB, List.map_append, hidx B, List.length_append, ← hB]
        simp only [List.map_cons, List.map_nil, List.length_cons, List.length_nil,
          Nat.zero_add]
        have hr : List.range' 1
            ((List.filter (fun e => decide (e.1 = p.1)) rq.edges).length + 1)
            = List.range' 1 (List.filter (fun e => decide (e.1 = p.1)) rq.edges).length
              ++ [(List.filter (fun e => decide (e.1 = p.1)) rq.edges).length + 1] := by
          simpa [Nat.add_comm] using @List.range'_concat 1 1
            (List.filter (fun e => decide (e.1 = p.1)) rq.edges).length
        rw [hr]
      · have hfB : List.filter (fun e => e.1 = B)
            [(p.1, p.2, (rq.edges.filter (fun e => e.1 = p.1)).length + 1)] = [] := by
          simp [List.filter, hB]
        rw [hfB, List.append_nil]
        exact hidx B
    have hfresh1 : ∀ q ∈ rest, ¬ ∃ i, (q.1, q.2, i) ∈ (reqAdd rq p).edges := by
      rintro q hq ⟨i, hi⟩
      rw [hedges1] at hi
      rcases List.mem_append.mp hi with hi | hi
      · exact hfresh q (List.mem_cons_of_mem p hq) ⟨i, hi⟩
      · have he := List.mem_singleton.mp hi
        have hqp : q = p := by
          injection he with h1 h23
          injection h23 with h2 h3
          exact Prod.ext h1 h2
        rw [hqp] at hq
        exact (List.nodup_cons.mp hnd).1 hq
    obtain ⟨ihm, ihidx⟩ := ih (reqAdd rq p) (List.nodup_cons.mp hnd).2 hfresh1 hidx1
    constructor
    · intro B A
      rw [List.foldl_cons, ihm B A, hmem1 B A, List.mem_cons]
      tauto
    · intro B
      rw [List.foldl_cons]
      exact ihidx B

/-- Membership in the addition-pair list, characterised over the input
graphs. -/
theorem mem_reqPairs (gs : List HGraph) (rd : Deg) (B A : String) :
    (B, A) ∈ reqPairs gs rd ↔
      ∃ g ∈ gs, g.behavior.name = A ∧ ∃ n ∈ g.nodes,
        n.name = B ∧ n.kind = NodeKind.behavior ∧ ¬ rd A B = 0 := by
  unfold reqPairs
  rw [List.mem_flatMap]
  constructor
  · rintro ⟨g, hg, hmem⟩
    rw [List.mem_map] at hmem
    obtain ⟨n, hn, heq⟩ := hmem
    rw [List.mem_filter] at hn
    have hc := of_decide_eq_true hn.2
    have hB : n.name = B := congrArg Prod.fst heq
    have hA : g.behavior.name = A := congrArg Prod.snd heq
    refine ⟨g, hg, hA, n, hn.1, hB, hc.1, ?_⟩
    rw [← hA, ← hB]
    exact hc.2
  · rintro ⟨g, hg, hA, n, hn, hB, hk, hdeg⟩
    refine ⟨g, hg, ?_⟩
    rw [List.mem_map]
    refine ⟨n, ?_, by rw [hB, hA]⟩
    rw [List.mem_filter]
    refine ⟨hn, decide_eq_true ⟨hk, ?_⟩⟩
    rw [hA, hB]
    exact hdeg

/-- With pairwise-distinct subject names and per-graph distinct node names,
the addition pairs are pairwise distinct. -/
theorem reqPairs_nodup (gs : List HGraph) (rd : Deg)
    (hsub : (gs.map (fun g => g.behavior.name)).Nodup)
    (hnod : ∀ g ∈ gs, (g.nodes.map HNode.name).Nodup) :
    (reqPairs gs rd).Nodup := by
  induction gs with
  | nil => exact List.nodup_nil
  | cons g rest ih =>
    show ((g.nodes.filter (fun n =>
        n.kind = NodeKind.behavior ∧ ¬ rd g.behavior.name n.name = 0)).map
        (fun n => (n.name, g.behavior.name)) ++ reqPairs rest rd).Nodup
    rw [List.nodup_append]
    rw [List.map_cons, List.nodup_cons] at hsub
    refine ⟨?_, ?_, ?_⟩
    · have hnames : ((g.nodes.filter (fun n =>
          n.kind = NodeKind.behavior ∧ ¬ rd g.behavior.name n.name = 0)).map
          HNode.name).Nodup :=
        (hnod g (List.mem_cons_self g rest)).sublist
          ((List.filter_sublist g.nodes).map HNode.name)
      have : (g.nodes.filter (fun n =>
          n.kind = NodeKind.behavior ∧ ¬ rd g.behavior.name n.name = 0)).map
          (fun n => (n.name, g.behavior.name))
          = ((g.nodes.filter (fun n =>
            n.kind = NodeKind.behavior ∧ ¬ rd g.behavior.name n.name = 0)).map
            HNode.name).map (fun s => (s, g.behavior.name)) := by
        rw [List.map_map]
        rfl
      rw [this]
      refine hnames.map ?_
      intro a b hab
      exact congrArg Prod.fst hab
    · exact ih hsub.2 (fun g2 hg2 => hnod g2 (List.mem_cons_of_mem g hg2))
    · intro a ha hb
      rw [List.mem_map] at ha
      obtain ⟨n, _, hn⟩ := ha
      have ha2 : a.2 = g.behavior.name := by rw [← hn]
      obtain ⟨g2, hg2, hA2, _⟩ := (mem_reqPairs rest rd a.1 a.2).mp hb
      refine hsub.1 ?_
      rw [List.mem_map]
      exact ⟨g2, hg2, by rw [hA2, ha2]⟩

/-- One graph's pass of the third loop equals folding `reqAdd` over the
graph's addition pairs. -/
theorem addReq_inner (rd : Deg) (g : HGraph) : ∀ (ns : List HNode) (rq : ReqGraph),
    ns.foldl (fun rq2 node =>
      if node.kind = NodeKind.behavior ∧ ¬ rd g.behavior.name node.name = 0 then
        reqAdd rq2 (node.name, g.behavior.name)
      else rq2) rq
    = ((ns.filter (fun n =>
        n.kind = NodeKind.behavior ∧ ¬ rd g.behavior.name n.name = 0)).map
        (fun n => (n.name, g.behavior.name))).foldl reqAdd rq := by
  intro ns
  induction ns with
  | nil => intro rq; rfl
  | cons n rest ih =>
    intro rq
    rw [List.foldl_cons, List.filter_cons]
    by_cases hc : n.kind = NodeKind.behavior ∧ ¬ rd g.behavior.name n.name = 0
    · rw [if_pos hc, if_pos (by simpa using hc), List.map_cons, List.foldl_cons]
      exact ih _
    · rw [if_neg hc, if_neg (by simpa using hc)]
      exact ih rq

/-- The third loop of `build_requirement_graph` is the fold of `reqAdd` over
the addition pairs, starting from the subject-only node set. -/
theorem addRequirementEdges_eq (gs : List HGraph) (rd : Deg) :
    addRequirementEdges gs rd
      = (reqPairs gs rd).foldl reqAdd ⟨gs.map (fun g => g.behavior.name), []⟩ := by
  unfold addRequirementEdges reqPairs
  suffices h : ∀ (gs2 : List HGraph) (rq : ReqGraph),
      gs2.foldl (fun rq g => g.nodes.foldl (fun rq2 node =>
        if node.kind = NodeKind.behavior ∧ ¬ rd g.behavior.name node.name = 0 then
          reqAdd rq2 (node.name, g.behavior.name)
        else rq2) rq) rq
      = (gs2.flatMap (fun g =>
          (g.nodes.filter (fun n =>
            n.kind = NodeKind.behavior ∧ ¬ rd g.behavior.name n.name = 0)).map
            (fun n => (n.name, g.behavior.name)))).foldl reqAdd rq by
    exact h gs _
  intro gs2
  induction gs2 with
  | nil => intro rq; rfl
  | cons g rest ih =>
    intro rq
    rw [List.foldl_cons, addReq_inner rd g, ih, List.flatMap_cons, List.foldl_append]

/-- C5 counterexample: in the fixture graph of behavior `A`, two Empty-node
cuts decrement behavior node `B` twice and its single occurrence adds one, so
its final requirement degree is `-1`; the claim says a non-positive degree
yields no edge, yet `build_requirement_graph` (which tests `degree != 0`)
adds the requirement edge `B → A`. -/
theorem requirement_edge_despite_negative_degree :
    (requirementDegrees [r5Graph]).map (fun rd => rd "A" "B") = some (-1) ∧
    buildRequirementGraph [r5Graph] = some ⟨["A", "B"], [("B", "A", 1)]⟩ := by
  constructor
  · decide
  · decide

/-- C5 (amended): for pairwise-distinct subject names and per-graph distinct
node names, once the degree computation succeeds a requirement edge `B → A`
exists iff behavior `A`'s graph holds a Behavior node named `B` whose final
requirement degree is nonzero (the source tests `degree != 0`, so strictly
negative degrees also yield edges, refuting the strictly-positive reading),
and the indices outgoing from each requirement node enumerate `1, 2, …` in
insertion order — each added edge carries one plus the number of requirement
edges already outgoing from its requirement node. -/
theorem requirement_edges_spec (gs : List HGraph) (rd : Deg)
    (hrd : requirementDegrees gs = some rd)
    (hsub : (gs.map (fun g => g.behavior.name)).Nodup)
    (hnod : ∀ g ∈ gs, (g.nodes.map HNode.name).Nodup) :
    ∃ rq, buildRequirementGraph gs = some rq ∧
      (∀ B A, (∃ i, (B, A, i) ∈ rq.edges) ↔
        ∃ g ∈ gs, g.behavior.name = A ∧ ∃ n ∈ g.nodes,
          n.name = B ∧ n.kind = NodeKind.behavior ∧ ¬ rd A B = 0) ∧
      (∀ B, ((rq.edges.filter (fun e => e.1 = B)).map (fun e => e.2.2))
        = List.range' 1 ((rq.edges.filter (fun e => e.1 = B)).length)) := by
  have hspec := foldPairs_spec (reqPairs gs rd) ⟨gs.map (fun g => g.behavior.name), []⟩
    (reqPairs_nodup gs rd hsub hnod)
    (by rintro q hq ⟨i, hi⟩; exact absurd hi (List.not_mem_nil _))
    (fun B => rfl)
  refine ⟨addRequirementEdges gs rd, ?_, ?_, ?_⟩
  · unfold buildRequirementGraph
    rw [hrd]
    rfl
  · intro B A
    rw [addRequirementEdges_eq gs rd, hspec.1 B A, mem_reqPairs gs rd B A]
    simp
  · intro B
    rw [addRequirementEdges_eq gs rd]
    exact hspec.2 B

/-- Closed-input check of the amended C5 theorem: behavior `A` uses behavior
node `B` once with no Empty-node cuts, so its degree is `1` and the single
edge `B → A` with index `1` is characterised. -/
theorem requirement_edges_spec_witness :
    ∃ rq, buildRequirementGraph [w5Graph] = some rq ∧
      (∀ B A, (∃ i, (B, A, i) ∈ rq.edges) ↔
        ∃ g ∈ [w5Graph], g.behavior.name = A ∧ ∃ n ∈ g.nodes,
          n.name = B ∧ n.kind = NodeKind.behavior ∧
          ¬ degAdd (fun a _ => if a = "A" then 0 else 0) "A" "B" 1 A B = 0) ∧
      (∀ B, ((rq.edges.filter (fun e => e.1 = B)).map (fun e => e.2.2))
        = List.range' 1 ((rq.edges.filter (fun e => e.1 = B)).length)) :=
  requirement_edges_spec [w5Graph]
    (degAdd (fun a _ => if a = "A" then 0 else 0) "A" "B" 1)
    rfl (by decide) (by decide)

end HebG
